import Mathlib

/-!
Verification development for the CD track-verification script
(ai-music-step-4-cd.py).  The Python functions `normalize_track`,
`calculate_track_similarity`, `extract_tracks_from_metadata` and
`extract_tracks_from_oclc` are shallowly embedded over `List Char`
(Python strings are modelled as ASCII character lists; `str.lower`,
`\w`, `\s` and `\d` are modelled at ASCII granularity, which covers all
inputs considered here).  Python floats are modelled as rationals; the
one float-sensitive expression, `int(shorter_length * 0.6)`, equals
`3 * shorter_length / 5` in natural-number division for every list
length that can occur (the double rounding of `n * 0.6` never crosses an
integer boundary below 2^50), and is embedded as such.
Recursions that walk a string while dropping a variable number of
characters are written with an explicit fuel argument (always
initialised to the string length, which each step consumes at least one
character of) so that every definition reduces in the kernel.
-/

/- Batteries marks the `Rat` arithmetic operations `@[irreducible]`,
which blocks `decide`-style evaluation of concrete similarity scores;
restore the default reducibility (kernel checking is unaffected by
reducibility attributes). -/
set_option allowUnsafeReducibility true
attribute [semireducible] Rat.mul Rat.inv Rat.add Rat.sub

set_option maxRecDepth 10000

/-- Python `\s` (ASCII): space, tab, newline, carriage return,
vertical tab, form feed. -/
def pySpace (c : Char) : Bool :=
  c == ' ' || c == '\t' || c == '\n' || c == '\r' || c.toNat == 11 || c.toNat == 12

/-- Python `\w` (ASCII): letters, digits, underscore. -/
def pyWordChar (c : Char) : Bool :=
  c.isAlphanum || c == '_'

/-- Python `str.lower` (ASCII). -/
def pyLower (s : List Char) : List Char :=
  s.map Char.toLower

/-- Python `str.strip()`: drop leading and trailing whitespace. -/
def pyStrip (s : List Char) : List Char :=
  ((s.dropWhile pySpace).reverse.dropWhile pySpace).reverse


/-- Python `pat in s` for strings: `pat` occurs as a contiguous
substring of `s` (the empty pattern occurs in everything). -/
def isSubstrGo (pat : List Char) : Nat → List Char → Bool
  | _, [] => pat.isEmpty
  | 0, s => pat.isPrefixOf s
  | fuel + 1, c :: rest => pat.isPrefixOf (c :: rest) || isSubstrGo pat fuel rest

def isSubstr (pat s : List Char) : Bool :=
  isSubstrGo pat s.length s

/-- Python `str.replace(pat, repl)`: replace all non-overlapping
occurrences scanning left to right; the replacement text is not
rescanned.  Fueled recursion; each step consumes at least one input
character when `pat` is nonempty. -/
def replaceAllGo (pat repl : List Char) : Nat → List Char → List Char
  | _, [] => []
  | 0, s => s
  | fuel + 1, c :: rest =>
    if pat.isPrefixOf (c :: rest) then
      repl ++ replaceAllGo pat repl fuel ((c :: rest).drop pat.length)
    else
      c :: replaceAllGo pat repl fuel rest

def replaceAll (pat repl s : List Char) : List Char :=
  replaceAllGo pat repl s.length s

/-- Generic model of `re.sub(pattern, '', s)` for a pattern compiled to
a matcher returning the match length at the current position (always at
least 1): scan left to right, drop each leftmost match, continue after
it. -/
def scanSubGo (m : List Char → Option Nat) : Nat → List Char → List Char
  | _, [] => []
  | 0, s => s
  | fuel + 1, c :: rest =>
    match m (c :: rest) with
    | some n => scanSubGo m fuel ((c :: rest).drop n)
    | none => c :: scanSubGo m fuel rest

def scanSub (m : List Char → Option Nat) (s : List Char) : List Char :=
  scanSubGo m s.length s

/-- Matcher for `\s*\(with [^)]+\)`: optional whitespace, literal
"(with ", at least one non-')' character, ')'. -/
def withParenMatch (s : List Char) : Option Nat :=
  let sp := s.takeWhile pySpace
  let r := s.drop sp.length
  if "(with ".toList.isPrefixOf r then
    let body := (r.drop 6).takeWhile (fun c => c != ')')
    if body ≠ [] && ")".toList.isPrefixOf (r.drop (6 + body.length)) then
      some (sp.length + 6 + body.length + 1)
    else none
  else none

/-- Matcher for `\s*\([^)]+\)`: optional whitespace, '(', at least one
non-')' character, ')'. -/
def parenMatch (s : List Char) : Option Nat :=
  let sp := s.takeWhile pySpace
  let r := s.drop sp.length
  if "(".toList.isPrefixOf r then
    let body := (r.drop 1).takeWhile (fun c => c != ')')
    if body ≠ [] && ")".toList.isPrefixOf (r.drop (1 + body.length)) then
      some (sp.length + 1 + body.length + 1)
    else none
  else none

/-- `re.sub(r'\s+', ' ', ·)`: collapse each whitespace run to a
single space. -/
def collapseWs : List Char → List Char
  | [] => []
  | [c] => if pySpace c then [' '] else [c]
  | c :: d :: rest =>
    if pySpace c && pySpace d then collapseWs (d :: rest)
    else (if pySpace c then ' ' else c) :: collapseWs (d :: rest)

/-- The first seven steps of `normalize_track` (everything before the
final whitespace collapse and strip), mirroring the Python source step
by step. -/
def normRaw (track : List Char) : List Char :=
  let norm := pyLower track
  let norm := if "the ".toList.isPrefixOf norm then norm.drop 4 ++ ", the".toList else norm
  let norm := replaceAll " is a ".toList " is ".toList norm
  let norm := replaceAll " is the ".toList " is ".toList norm
  let norm := replaceAll "(stripped)".toList [] norm
  let norm := replaceAll "(edit)".toList [] norm
  let norm := replaceAll "stripped".toList [] norm
  let norm := replaceAll "edit".toList [] norm
  let norm := scanSub withParenMatch norm
  let norm := scanSub parenMatch norm
  norm.filter (fun c => pyWordChar c || pySpace c)

/-- `normalize_track` on character lists: the replacement chain
followed by `re.sub(r'\s+', ' ', ·).strip()`. -/
def normChars (track : List Char) : List Char :=
  pyStrip (collapseWs (normRaw track))

/-- `normalize_track` at the `String` interface of the Python function. -/
def normalize_track (track : String) : String :=
  ⟨normChars track.data⟩

/-! ## difflib.SequenceMatcher ratio -/

/-- Length of the common prefix of two character lists. -/
def commonPrefixLen : List Char → List Char → Nat
  | a :: as, b :: bs => if a = b then commonPrefixLen as bs + 1 else 0
  | _, _ => 0

/-- `SequenceMatcher.find_longest_match` over the whole strings (no
junk: all inputs here are far below the 200-character autojunk
threshold).  Returns `(i, j, k)`: the longest block with
`a[i:i+k] = b[j:j+k]`, ties broken by least `i`, then least `j`.
Every maximal block is left-maximal, so scanning maximal extensions at
each `(i, j)` in lexicographic order and keeping strict improvements
reproduces difflib's choice. -/
def bestBlock (a b : List Char) : Nat × Nat × Nat :=
  (List.range a.length).foldl (fun acc i =>
    (List.range b.length).foldl (fun acc2 j =>
      let k := commonPrefixLen (a.drop i) (b.drop j)
      if k > acc2.2.2 then (i, j, k) else acc2) acc) (0, 0, 0)

/-- Total size of all matching blocks (`get_matching_blocks`): recurse
on both sides of the longest match.  Fuel bounds the recursion depth;
each recursive call is on a strictly shorter first list, so
`a.length + 1` always suffices. -/
def matchSumGo : Nat → List Char → List Char → Nat
  | 0, _, _ => 0
  | fuel + 1, a, b =>
    let t := bestBlock a b
    if t.2.2 = 0 then 0
    else
      matchSumGo fuel (a.take t.1) (b.take t.2.1) + t.2.2 +
        matchSumGo fuel (a.drop (t.1 + t.2.2)) (b.drop (t.2.1 + t.2.2))

def matchSum (a b : List Char) : Nat :=
  matchSumGo (a.length + 1) a b

/-- `SequenceMatcher(None, a, b).ratio()`: `2M / (|a| + |b|)`, and 1.0
when both strings are empty. -/
def pyRatio (a b : List Char) : ℚ :=
  if a.length + b.length = 0 then 1
  else (2 * matchSum a b : ℚ) / (a.length + b.length : ℚ)

/-! ## Word sets -/

/-- Python `str.split()`: split on whitespace runs, no empty fields.
Fueled scan with an accumulator for the current word (reversed). -/
def pySplitGo : Nat → List Char → List Char → List (List Char)
  | _, acc, [] => if acc = [] then [] else [acc.reverse]
  | 0, acc, s => if acc = [] then [s] else [acc.reverse ++ s]
  | fuel + 1, acc, c :: rest =>
    if pySpace c then
      if acc = [] then pySplitGo fuel [] rest
      else acc.reverse :: pySplitGo fuel [] rest
    else pySplitGo fuel (c :: acc) rest

def pySplit (s : List Char) : List (List Char) :=
  pySplitGo s.length [] s

/-- `set(s.split())`, as a duplicate-free list; only its cardinality
and membership are ever used. -/
def wordSet (s : List Char) : List (List Char) :=
  (pySplit s).dedup

/-- `len(meta_words.intersection(oclc_words))`. -/
def wordCommonCount (meta oclc : List Char) : Nat :=
  ((wordSet meta).filter (fun w => (wordSet oclc).contains w)).length

/-- `min(len(meta_words), len(oclc_words))`. -/
def wordShorter (meta oclc : List Char) : Nat :=
  min (wordSet meta).length (wordSet oclc).length

/-- The guard of the word-overlap rule:
`shorter_length > 0 and len(common_words) >= max(1, int(shorter_length * 0.6))`
(`int(n * 0.6)` embedded as `3 * n / 5`, exact for every feasible `n`). -/
def wordOverlapFires (meta oclc : List Char) : Bool :=
  decide (0 < wordShorter meta oclc) &&
    decide (max 1 (3 * wordShorter meta oclc / 5) ≤ wordCommonCount meta oclc)

/-- The non-multi-part similarity of one normalized pair, with the flag
recording whether the word-overlap or containment arm produced it
(`is_substring_match` is set in both of those arms of the source). -/
def track_pair_similarity (meta oclc : List Char) : ℚ × Bool :=
  if wordOverlapFires meta oclc then
    (max ((4 : ℚ)/5) ((wordCommonCount meta oclc : ℚ) / (wordShorter meta oclc : ℚ)), true)
  else if isSubstr meta oclc || isSubstr oclc meta then
    (max ((17 : ℚ)/20) (pyRatio meta oclc), true)
  else
    (pyRatio meta oclc, false)

/-! ## Multi-part consolidation -/

/-- Case-insensitive literal prefix strip; `pre` is given lowercase. -/
def stripPrefixCI : List Char → List Char → Option (List Char)
  | [], s => some s
  | _, [] => none
  | p :: ps, c :: cs => if c.toLower = p then stripPrefixCI ps cs else none

/-- Tail of `^(?:Part|Movement)\s*(\d+|[IVX]+)$` after the keyword:
optional whitespace then a nonempty run that is all digits or all
roman-numeral letters (case-insensitive), ending the string; the `$`
anchor also matches just before one trailing newline. -/
def partNumTail (s : List Char) : Bool :=
  let r := s.dropWhile pySpace
  let core := if r.getLast? == some '\n' then r.dropLast else r
  core ≠ [] && (core.all Char.isDigit ||
    core.all (fun c => c == 'I' || c == 'V' || c == 'X' || c == 'i' || c == 'v' || c == 'x'))

/-- `re.match(r'^(?:Part|Movement)\s*(\d+|[IVX]+)$', track, re.IGNORECASE)`. -/
def isPartEntry (track : String) : Bool :=
  match stripPrefixCI "part".toList track.data with
  | some r => partNumTail r
  | none =>
    match stripPrefixCI "movement".toList track.data with
    | some r => partNumTail r
    | none => false

/-- `re.match(r'^(?:Part|Movement)', track, re.IGNORECASE)`. -/
def isPartHead (track : String) : Bool :=
  (stripPrefixCI "part".toList track.data).isSome ||
    (stripPrefixCI "movement".toList track.data).isSome

/-- `dict.setdefault(main, []).append(part)` on an insertion-ordered
association list. -/
def addPart : List (String × List String) → String → String → List (String × List String)
  | [], main, part => [(main, [part])]
  | (k, v) :: rest, main, part =>
    if k = main then (k, v ++ [part]) :: rest
    else (k, v) :: addPart rest main part

/-- The `multi_part_groups` dict: a "Part/Movement N" entry is grouped
under the entry immediately before it, provided that predecessor does
not itself start with Part/Movement. -/
def multiPartGroups (tracks : List String) : List (String × List String) :=
  tracks.enum.foldl (fun groups it =>
    if isPartEntry it.2 && decide (0 < it.1) && !isPartHead (tracks.getD (it.1 - 1) "") then
      addPart groups (tracks.getD (it.1 - 1) "") it.2
    else groups) []

/-- `processed_metadata_tracks`: originals that are neither a group key
nor a grouped part, then one synthetic `"<main> (with <k> parts)"` per
group, falling back to the original list if that leaves nothing. -/
def consolidatedTracks (tracks : List String) : List String :=
  let groups := multiPartGroups tracks
  let keys := groups.map Prod.fst
  let allParts := groups.foldr (fun g acc => g.2 ++ acc) []
  let processed := tracks.filter (fun t => !keys.contains t && !allParts.contains t)
  let processed :=
    if groups ≠ [] then
      processed ++ groups.map (fun g => g.1 ++ " (with " ++ Nat.repr g.2.length ++ " parts)")
    else processed
  if processed = [] then tracks else processed

/-! ## The matching loop -/

/-- Per-entry state of the inner matching loop: best similarity so far,
index of the best catalog entry (−1 when none has positive similarity),
and the two classification flags. -/
structure MatchState where
  best : ℚ
  bestIdx : Int
  isSub : Bool
  isPart : Bool
deriving Repr, DecidableEq

/-- `"with" in meta_track and "parts" in meta_track` on the normalized
entry: the guard of the multi-part matching branch. -/
def hasWithParts (meta : List Char) : Bool :=
  isSubstr "with".toList meta && isSubstr "parts".toList meta

/-- Matcher for `\s+with \d+ parts`: at least one whitespace character,
"with ", at least one digit, " parts". -/
def withNumPartsMatch (s : List Char) : Option Nat :=
  let sp := s.takeWhile pySpace
  if sp = [] then none
  else
    let r := s.drop sp.length
    if "with ".toList.isPrefixOf r then
      let d := (r.drop 5).takeWhile Char.isDigit
      if d ≠ [] && " parts".toList.isPrefixOf (r.drop (5 + d.length)) then
        some (sp.length + 5 + d.length + 6)
      else none
    else none

/-- `re.sub(r'\s+with \d+ parts', '', meta_track)`. -/
def mainTitleOf (meta : List Char) : List Char :=
  scanSub withNumPartsMatch meta

/-- One step of the inner loop in the multi-part branch: containment
of the stripped main title scores 0.95 and marks the multi-part flag,
anything else falls back to the sequence ratio against the stripped
main title; a strictly better similarity replaces the best match. -/
def partStep (main : List Char) (st : MatchState) (jt : Nat × List Char) : MatchState :=
  let simPart : ℚ × Bool :=
    if isSubstr main jt.2 || isSubstr jt.2 main then ((19 : ℚ)/20, true)
    else (pyRatio main jt.2, false)
  let st := { st with isPart := st.isPart || simPart.2 }
  if simPart.1 > st.best then { st with best := simPart.1, bestIdx := (jt.1 : Int) } else st

/-- One step of the inner loop in the ordinary branch: word-overlap /
containment / ratio similarity, recording the substring flag; a
strictly better similarity replaces the best match. -/
def subStep (meta : List Char) (st : MatchState) (jt : Nat × List Char) : MatchState :=
  let simSub := track_pair_similarity meta jt.2
  let st := { st with isSub := st.isSub || simSub.2 }
  if simSub.1 > st.best then { st with best := simSub.1, bestIdx := (jt.1 : Int) } else st

/-- The inner loop over the normalized catalog entries for one
normalized metadata entry, reproducing both branches of the source. -/
def matchOne (meta : List Char) (oclcs : List (List Char)) : MatchState :=
  if hasWithParts meta then
    oclcs.enum.foldl (partStep (mainTitleOf meta)) ⟨0, -1, false, false⟩
  else
    oclcs.enum.foldl (subStep meta) ⟨0, -1, false, false⟩

/-- Normalize a list of track strings. -/
def normTracks (ts : List String) : List (List Char) :=
  ts.map (fun t => normChars t.data)

/-- The per-entry match trace of the scoring loop (source title order,
best score, chosen counterpart, classification flags). -/
def track_match_states (metadata_tracks oclc_tracks : List String) : List MatchState :=
  (normTracks (consolidatedTracks metadata_tracks)).map
    (fun m => matchOne m (normTracks oclc_tracks))

/-- `matches`: each entry whose best score reaches 0.8 contributes that
best score; entries below the threshold contribute nothing. -/
def matchesTotal (normMeta normOclc : List (List Char)) : ℚ :=
  normMeta.foldl (fun acc m =>
    let st := matchOne m normOclc
    if (4 : ℚ)/5 ≤ st.best then acc + st.best else acc) 0

/-- `calculate_track_similarity`, following the source line by line:
empty guard, consolidation, normalization, matching loop, dead
zero-length guard, and the multi-part bonus. -/
def calculate_track_similarity (metadata_tracks oclc_tracks : List String) : ℚ :=
  if metadata_tracks = [] ∨ oclc_tracks = [] then 0
  else
    let processed := consolidatedTracks metadata_tracks
    let normMeta := normTracks processed
    let normOclc := normTracks oclc_tracks
    let total := matchesTotal normMeta normOclc
    if normMeta.length = 0 then 0
    else
      let similarity := total / (normMeta.length : ℚ)
      if multiPartGroups metadata_tracks ≠ [] ∧ similarity * 100 < 80 then
        min 80 (similarity * 100 + 10)
      else similarity * 100

/-- The raw percentage `similarity * 100` before the multi-part bonus. -/
def raw_similarity_percent (metadata_tracks oclc_tracks : List String) : ℚ :=
  let normMeta := normTracks (consolidatedTracks metadata_tracks)
  matchesTotal normMeta (normTracks oclc_tracks) / (normMeta.length : ℚ) * 100

/-! ## Claims: counterexamples and easy theorems -/

/-- C1 counterexample: with metadata `["ab"]` and catalog `["ac"]` the
single entry's best similarity is 1/2, yet the function returns 0, not
the 50 that dividing the sum of all best-match values by the entry
count would give: best scores below 0.8 contribute nothing. -/
theorem c1_counterexample :
    calculate_track_similarity ["ab"] ["ac"] = 0 ∧
    (track_match_states ["ab"] ["ac"]).map MatchState.best = [1/2] ∧
    ¬ calculate_track_similarity ["ab"] ["ac"] =
        100 * ((track_match_states ["ab"] ["ac"]).map MatchState.best).sum /
          ((track_match_states ["ab"] ["ac"]).length : ℚ) := by
  decide

/-- C2 counterexample: `["Intro", "Part 1", "Part 2"]` consolidates to
`["Part 2", "Intro (with 1 parts)"]` — only the first part is grouped,
"Part 2" stays standalone, and no `"Intro (with 2 parts)"` entry is
produced. -/
theorem c2_counterexample :
    consolidatedTracks ["Intro", "Part 1", "Part 2"] = ["Part 2", "Intro (with 1 parts)"] ∧
    "Intro (with 2 parts)" ∉ consolidatedTracks ["Intro", "Part 1", "Part 2"] := by
  decide

/-- C3 counterexample: in the scenario (metadata
`["Intro", "Part 1", "Part 2"]`, catalog `["Intro"]`) no entry is
classified multi-part and no entry scores 0.95: the synthetic entry's
normalization drops "(with 1 parts)", so it matches "Intro" at 1.0
through the word-overlap arm (substring classification) instead. -/
theorem c3_counterexample :
    (track_match_states ["Intro", "Part 1", "Part 2"] ["Intro"]).map MatchState.isPart
      = [false, false] ∧
    (track_match_states ["Intro", "Part 1", "Part 2"] ["Intro"]).map MatchState.best
      = [2/11, 1] ∧
    (track_match_states ["Intro", "Part 1", "Part 2"] ["Intro"]).map MatchState.isSub
      = [false, true] := by
  decide

/-- C4 counterexample: on normalized entries "a b" and "a c" the
word-overlap rule fires although only 1 of the 2 words of the smaller
set (50% < 60%) appears in the other set. -/
theorem c4_counterexample :
    wordOverlapFires (normChars "a b".data) (normChars "a c".data) = true ∧
    (wordCommonCount (normChars "a b".data) (normChars "a c".data) : ℚ) /
      (wordShorter (normChars "a b".data) (normChars "a c".data) : ℚ) < 3/5 ∧
    track_pair_similarity (normChars "a b".data) (normChars "a c".data) = (4/5, true) := by
  decide

/-- C5 counterexample: two self-comparisons that do not score 100, with
no sentinel entries involved: a title whose normalization contains
"with" and "parts" is routed into the multi-part branch and scores
0.95 against itself, and a grouped list scores its synthetic entry the
same way. -/
theorem c5_counterexample :
    calculate_track_similarity ["with parts"] ["with parts"] = 95 ∧
    calculate_track_similarity ["With All Parts", "Part 1"] ["With All Parts", "Part 1"] = 95 ∧
    (95 : ℚ) ≠ 100 := by
  decide

/-- C6 counterexample: normalizing "The The Song" gives "the song the";
normalizing again moves the now-leading "the " a second time, giving
"song the the". -/
theorem c6_counterexample :
    normalize_track "The The Song" = "the song the" ∧
    normalize_track (normalize_track "The The Song") = "song the the" ∧
    normalize_track (normalize_track "The The Song") ≠ normalize_track "The The Song" := by
  decide

/-- C8: if either track list is empty the function returns 0 (and, the
embedding being total, no error is possible). -/
theorem c8_empty_lists (A B : List String) :
    calculate_track_similarity [] B = 0 ∧ calculate_track_similarity A [] = 0 := by
  refine ⟨?_, ?_⟩ <;> simp [calculate_track_similarity]

/-! ## Structural lemmas about the scorer -/

theorem consolidatedTracks_ne_nil (A : List String) (h : A ≠ []) :
    consolidatedTracks A ≠ [] := by
  have aux : ∀ p : List String, (if p = [] then A else p) ≠ [] := by
    intro p
    split
    · exact h
    · assumption
  exact aux _

theorem normTracks_length_ne_zero (A : List String) (h : A ≠ []) :
    (normTracks (consolidatedTracks A)).length ≠ 0 := by
  simp only [normTracks, List.length_map, ne_eq, List.length_eq_zero]
  exact consolidatedTracks_ne_nil A h

/-- For nonempty inputs the result is the raw percentage, adjusted by
the multi-part bonus exactly when a group exists and the raw
percentage is below 80. -/
theorem calc_eq_branch (A B : List String) (hA : A ≠ []) (hB : B ≠ []) :
    calculate_track_similarity A B =
      if multiPartGroups A ≠ [] ∧ raw_similarity_percent A B < 80 then
        min 80 (raw_similarity_percent A B + 10)
      else raw_similarity_percent A B := by
  simp only [calculate_track_similarity, raw_similarity_percent]
  rw [if_neg (by rintro (h | h); exacts [hA h, hB h])]
  rw [if_neg (normTracks_length_ne_zero A hA)]

theorem matchesTotal_foldl_eq (no : List (List Char)) :
    ∀ (nm : List (List Char)) (acc : ℚ),
      nm.foldl (fun acc m =>
        let st := matchOne m no
        if (4 : ℚ)/5 ≤ st.best then acc + st.best else acc) acc =
      acc + (nm.map (fun m =>
        let st := matchOne m no
        if (4 : ℚ)/5 ≤ st.best then st.best else (0 : ℚ))).sum := by
  intro nm
  induction nm with
  | nil => intro acc; simp
  | cons m rest ih =>
    intro acc
    simp only [List.foldl_cons, List.map_cons, List.sum_cons, ih]
    split <;> ring

theorem matchesTotal_eq_sum (nm no : List (List Char)) :
    matchesTotal nm no =
      (nm.map (fun m =>
        let st := matchOne m no
        if (4 : ℚ)/5 ≤ st.best then st.best else (0 : ℚ))).sum := by
  simpa using matchesTotal_foldl_eq no nm 0

/-- C7: the multi-part bonus rule.  When a group exists and the raw
percentage is below 80, the result is `min 80 (raw + 10)`, which never
exceeds 80 and never falls below the raw percentage; otherwise the raw
percentage is returned unchanged. -/
theorem c7_multipart_bonus (A B : List String) (hA : A ≠ []) (hB : B ≠ []) :
    (multiPartGroups A ≠ [] ∧ raw_similarity_percent A B < 80 →
      calculate_track_similarity A B = min 80 (raw_similarity_percent A B + 10) ∧
      raw_similarity_percent A B ≤ calculate_track_similarity A B ∧
      calculate_track_similarity A B ≤ 80) ∧
    (multiPartGroups A = [] ∨ 80 ≤ raw_similarity_percent A B →
      calculate_track_similarity A B = raw_similarity_percent A B) := by
  rw [calc_eq_branch A B hA hB]
  constructor
  · intro h
    rw [if_pos h]
    refine ⟨rfl, le_min (by linarith [h.2]) (by linarith), min_le_left _ _⟩
  · intro h
    rw [if_neg]
    rintro ⟨hg, hr⟩
    rcases h with h | h
    · exact hg h
    · linarith

/-- C7 witness: metadata `["Intro", "Part 1"]` groups, scores raw 0
against catalog `["qq"]`, and the returned score is
`min 80 (0 + 10) = 10`. -/
theorem c7_multipart_bonus_witness :
    calculate_track_similarity ["Intro", "Part 1"] ["qq"] =
      min 80 (raw_similarity_percent ["Intro", "Part 1"] ["qq"] + 10) ∧
    calculate_track_similarity ["Intro", "Part 1"] ["qq"] = 10 :=
  ⟨((c7_multipart_bonus ["Intro", "Part 1"] ["qq"] (by decide) (by decide)).1
      ⟨by decide, by decide⟩).1,
    by decide⟩

/-- C1 (amended): the aggregate percentage sums only the best-match
values of entries whose best score reaches the 0.8 threshold (entries
below it contribute 0), divided by the consolidated entry count, times
100, before the multi-part bonus. -/
theorem c1_amended_threshold_sum (A B : List String) (hA : A ≠ []) (hB : B ≠ []) :
    calculate_track_similarity A B =
      (let sts := track_match_states A B
       let raw := 100 * (sts.map (fun st =>
         if (4 : ℚ)/5 ≤ st.best then st.best else (0 : ℚ))).sum / (sts.length : ℚ)
       if multiPartGroups A ≠ [] ∧ raw < 80 then min 80 (raw + 10) else raw) := by
  have hraw : raw_similarity_percent A B =
      100 * ((track_match_states A B).map (fun st =>
        if (4 : ℚ)/5 ≤ st.best then st.best else (0 : ℚ))).sum /
        ((track_match_states A B).length : ℚ) := by
    simp only [raw_similarity_percent, track_match_states, matchesTotal_eq_sum,
      List.map_map, List.length_map, Function.comp_def]
    ring
  simpa only [hraw] using calc_eq_branch A B hA hB

/-- C1 witness: the amended formula instantiated at metadata `["ab"]`,
catalog `["ac"]`. -/
theorem c1_amended_threshold_sum_witness :
    calculate_track_similarity ["ab"] ["ac"] =
      (let sts := track_match_states ["ab"] ["ac"]
       let raw := 100 * (sts.map (fun st =>
         if (4 : ℚ)/5 ≤ st.best then st.best else (0 : ℚ))).sum / (sts.length : ℚ)
       if multiPartGroups ["ab"] ≠ [] ∧ raw < 80 then min 80 (raw + 10) else raw) :=
  c1_amended_threshold_sum ["ab"] ["ac"] (by decide) (by decide)

/-- C4 (amended, positive half): whenever the smaller word set is
nonempty and at least 60% of its words appear in the other set, the
word-overlap rule does fire and yields `max 0.8 (overlap/smaller)`;
the converse fails (see the counterexample): the implemented guard is
`overlap ≥ max(1, int(0.6 * smaller))`, which can be met below 60%. -/
theorem c4_amended_word_overlap (meta oclc : List Char)
    (h0 : 0 < wordShorter meta oclc)
    (h6 : (3 : ℚ)/5 ≤ (wordCommonCount meta oclc : ℚ) / (wordShorter meta oclc : ℚ)) :
    wordOverlapFires meta oclc = true ∧
    track_pair_similarity meta oclc =
      (max ((4 : ℚ)/5) ((wordCommonCount meta oclc : ℚ) / (wordShorter meta oclc : ℚ)), true) := by
  have hsq : (0 : ℚ) < (wordShorter meta oclc : ℚ) := by exact_mod_cast h0
  rw [div_le_div_iff₀ (by norm_num) hsq] at h6
  have h35 : 3 * wordShorter meta oclc ≤ wordCommonCount meta oclc * 5 := by exact_mod_cast h6
  have hdiv : 3 * wordShorter meta oclc / 5 ≤ wordCommonCount meta oclc := by
    have h5 : 3 * wordShorter meta oclc / 5 ≤ wordCommonCount meta oclc * 5 / 5 :=
      Nat.div_le_div_right h35
    simpa [Nat.mul_div_cancel] using h5
  have hc1 : 1 ≤ wordCommonCount meta oclc := by
    rcases Nat.eq_zero_or_pos (wordCommonCount meta oclc) with h | h
    · omega
    · exact h
  have hfires : wordOverlapFires meta oclc = true := by
    simp only [wordOverlapFires, Bool.and_eq_true, decide_eq_true_eq]
    exact ⟨h0, max_le hc1 hdiv⟩
  refine ⟨hfires, ?_⟩
  simp [track_pair_similarity, hfires]

/-- C4 witness: identical two-word entries, overlap 2 of 2 (≥ 60%). -/
theorem c4_amended_word_overlap_witness :
    wordOverlapFires "a b".toList "a b".toList = true ∧
    track_pair_similarity "a b".toList "a b".toList =
      (max ((4 : ℚ)/5) ((wordCommonCount "a b".toList "a b".toList : ℚ) /
        (wordShorter "a b".toList "a b".toList : ℚ)), true) :=
  c4_amended_word_overlap "a b".toList "a b".toList (by decide) (by decide)

/-- C3 (amended): the dedicated multi-part rule keys on the normalized
entry still containing "with" and "parts"; normalization strips the
"(with k parts)" suffix, so the synthetic entry of the scenario
normalizes to "intro", is handled by the general rules, matches
"Intro" at 1.0 and is classified substring, not multi-part.  When a
normalized entry does retain "with" and "parts" (e.g. "with all
parts"), containment gives 0.95 with the multi-part classification. -/
theorem c3_amended_substring_classification :
    (track_match_states ["Intro", "Part 1", "Part 2"] ["Intro"]).map
        (fun st => (st.best, st.isSub, st.isPart)) = [(2/11, false, false), (1, true, false)] ∧
    hasWithParts (normChars "Intro (with 1 parts)".data) = false ∧
    normChars "Intro (with 1 parts)".data = "intro".toList ∧
    (matchOne "with all parts".toList ["with all parts".toList]).best = 19/20 ∧
    (matchOne "with all parts".toList ["with all parts".toList]).isPart = true := by
  decide

/-! ## Invariants of the inner matching loop (ordinary branch) -/

theorem subStep_fold_isPart (meta : List Char) (es : List (Nat × List Char))
    (st : MatchState) : (es.foldl (subStep meta) st).isPart = st.isPart := by
  induction es generalizing st with
  | nil => rfl
  | cons e rest ih =>
    rw [List.foldl_cons, ih]
    simp only [subStep]
    split <;> rfl

theorem subStep_fold_isSub_true (meta : List Char) (es : List (Nat × List Char))
    (st : MatchState) (h : st.isSub = true) :
    (es.foldl (subStep meta) st).isSub = true := by
  induction es generalizing st with
  | nil => exact h
  | cons e rest ih =>
    rw [List.foldl_cons]
    apply ih
    simp only [subStep]
    split <;> simp [h]

theorem subStep_fold_best_mono (meta : List Char) (es : List (Nat × List Char))
    (st : MatchState) : st.best ≤ (es.foldl (subStep meta) st).best := by
  induction es generalizing st with
  | nil => exact le_refl _
  | cons e rest ih =>
    rw [List.foldl_cons]
    refine le_trans ?_ (ih _)
    simp only [subStep]
    split
    · rename_i h
      simp only [gt_iff_lt] at h
      exact le_of_lt h
    · exact le_refl _

theorem subStep_fold_best_ge (meta : List Char) (es : List (Nat × List Char))
    (st : MatchState) (jt : Nat × List Char) (hmem : jt ∈ es) :
    (track_pair_similarity meta jt.2).1 ≤ (es.foldl (subStep meta) st).best := by
  induction es generalizing st with
  | nil => cases hmem
  | cons e rest ih =>
    rw [List.foldl_cons]
    rcases List.mem_cons.mp hmem with he | hr
    · subst he
      refine le_trans ?_ (subStep_fold_best_mono meta rest _)
      simp only [subStep]
      split
      · exact le_refl _
      · rename_i h
        simpa using le_of_not_lt h
    · exact ih _ hr

theorem subStep_fold_best_le (meta : List Char) (es : List (Nat × List Char))
    (st : MatchState) (C : ℚ) (hst : st.best ≤ C)
    (hall : ∀ jt ∈ es, (track_pair_similarity meta jt.2).1 ≤ C) :
    (es.foldl (subStep meta) st).best ≤ C := by
  induction es generalizing st with
  | nil => exact hst
  | cons e rest ih =>
    rw [List.foldl_cons]
    refine ih _ ?_ (fun jt hjt => hall jt (List.mem_cons_of_mem e hjt))
    simp only [subStep]
    split
    · exact hall e (List.mem_cons_self e rest)
    · exact hst

/-! ## C10: entries whose normalization is empty -/

theorem isSubstr_nil_left (t : List Char) : isSubstr [] t = true := by
  cases t with
  | nil => rfl
  | cons c rest => simp [isSubstr, isSubstrGo, List.isPrefixOf]

theorem wordOverlapFires_nil_left (t : List Char) : wordOverlapFires [] t = false := by
  simp [wordOverlapFires, wordShorter, wordSet, pySplit, pySplitGo]

/-- A pair whose metadata side normalizes to the empty string always
takes the containment arm: the empty string is a substring of every
catalog entry. -/
theorem track_pair_similarity_nil_left (t : List Char) :
    track_pair_similarity [] t = (max ((17 : ℚ)/20) (pyRatio [] t), true) := by
  rw [track_pair_similarity, wordOverlapFires_nil_left]
  simp [isSubstr_nil_left]

theorem normalize_track_data (s : String) : (normalize_track s).data = normChars s.data := by
  rw [normalize_track]

/-- C10: an entry normalizing to the empty string, compared against any
nonempty catalog list, scores at least 0.85 through the containment
arm, is classified substring (never multi-part), and clears the 0.8
matched threshold. -/
theorem c10_empty_normalization_matches (s : String) (B : List String)
    (hn : normalize_track s = "") (hB : B ≠ []) :
    (17 : ℚ)/20 ≤ (matchOne (normChars s.data) (normTracks B)).best ∧
    (4 : ℚ)/5 ≤ (matchOne (normChars s.data) (normTracks B)).best ∧
    (matchOne (normChars s.data) (normTracks B)).isSub = true ∧
    (matchOne (normChars s.data) (normTracks B)).isPart = false := by
  have hn' : normChars s.data = [] := by
    rw [← normalize_track_data, hn]
  rw [hn']
  rw [matchOne, show hasWithParts ([] : List Char) = false from rfl]
  simp only [Bool.false_eq_true, if_false]
  obtain ⟨b, bs, hBr⟩ : ∃ b bs, normTracks B = b :: bs := by
    cases hNB : normTracks B with
    | nil =>
      exfalso
      apply hB
      have hlen := congrArg List.length hNB
      simpa [normTracks, List.length_eq_zero] using hlen
    | cons b bs => exact ⟨b, bs, rfl⟩
  rw [hBr, List.enum_cons, List.foldl_cons]
  have hgt : (0 : ℚ) < max ((17 : ℚ)/20) (pyRatio [] b) :=
    lt_of_lt_of_le (by norm_num) (le_max_left _ _)
  have hstep : subStep [] ⟨0, -1, false, false⟩ (0, b) =
      ⟨max ((17 : ℚ)/20) (pyRatio [] b), 0, true, false⟩ := by
    simp [subStep, track_pair_similarity_nil_left, hgt]
  rw [hstep]
  have hbest := subStep_fold_best_mono [] (bs.enumFrom 1)
    ⟨max ((17 : ℚ)/20) (pyRatio [] b), 0, true, false⟩
  have h85 : (17 : ℚ)/20 ≤ (((bs.enumFrom 1)).foldl (subStep [])
      ⟨max ((17 : ℚ)/20) (pyRatio [] b), 0, true, false⟩).best :=
    le_trans (le_max_left _ _) hbest
  refine ⟨h85, le_trans (by norm_num) h85, ?_, ?_⟩
  · exact subStep_fold_isSub_true [] _ _ rfl
  · rw [subStep_fold_isPart]

/-- C10 witness: "Edit" normalizes to the empty string and matches any
catalog entry, here "Song". -/
theorem c10_empty_normalization_matches_witness :
    (17 : ℚ)/20 ≤ (matchOne (normChars "Edit".data) (normTracks ["Song"])).best ∧
    (4 : ℚ)/5 ≤ (matchOne (normChars "Edit".data) (normTracks ["Song"])).best ∧
    (matchOne (normChars "Edit".data) (normTracks ["Song"])).isSub = true ∧
    (matchOne (normChars "Edit".data) (normTracks ["Song"])).isPart = false :=
  c10_empty_normalization_matches "Edit" ["Song"] (by decide) (by decide)

/-! ## C2: multi-part grouping -/

theorem isPartEntry_isPartHead (t : String) (h : isPartEntry t = true) :
    isPartHead t = true := by
  unfold isPartEntry at h
  unfold isPartHead
  cases hp : stripPrefixCI "part".toList t.data with
  | some r => simp [hp]
  | none =>
    simp only [hp] at h
    cases hm : stripPrefixCI "movement".toList t.data with
    | some r => simp [hm]
    | none => simp only [hm] at h; cases h

theorem string_append_data (s t : String) : (s ++ t).data = s.data ++ t.data := rfl

/-- C2 (amended): a "Part/Movement N" entry is grouped only when the
entry immediately before it is not itself a Part/Movement entry, so of
a consecutive run of parts only the first is grouped: a list
`[main, p, q]` with `p`, `q` part entries consolidates to
`[q, main ++ " (with 1 parts)"]`, with `q` left standalone. -/
theorem c2_amended_single_part_grouping (main p q : String)
    (hm : isPartHead main = false) (hp : isPartEntry p = true) (hq : isPartEntry q = true)
    (hqp : q ≠ p) :
    multiPartGroups [main, p, q] = [(main, [p])] ∧
    consolidatedTracks [main, p, q] = [q, main ++ " (with 1 parts)"] := by
  have hpe : isPartEntry main = false := by
    cases hme : isPartEntry main
    · rfl
    · rw [isPartEntry_isPartHead main hme] at hm; cases hm
  have hph : isPartHead p = true := isPartEntry_isPartHead p hp
  have hpm : p ≠ main := by
    intro h
    rw [h, hm] at hph
    cases hph
  have hqm : q ≠ main := by
    intro h
    have hqh := isPartEntry_isPartHead q hq
    rw [h, hm] at hqh
    cases hqh
  have hgroups : multiPartGroups [main, p, q] = [(main, [p])] := by
    simp [multiPartGroups, List.enum, List.enumFrom, List.getD, hpe, hp, hq, hm, hph, addPart]
  refine ⟨hgroups, ?_⟩
  have hstr : main ++ " (with " ++ Nat.repr 1 ++ " parts)" = main ++ " (with 1 parts)" := by
    apply String.ext
    simp only [string_append_data, List.append_assoc]
    rfl
  have hcons : consolidatedTracks [main, p, q] =
      [q, main ++ " (with " ++ Nat.repr 1 ++ " parts)"] := by
    simp [consolidatedTracks, hgroups, List.filter, hpm, hqm, hqp]
  rw [hcons, hstr]

/-- C2 witness: the scenario list `["Intro", "Part 1", "Part 2"]`. -/
theorem c2_amended_single_part_grouping_witness :
    multiPartGroups ["Intro", "Part 1", "Part 2"] = [("Intro", ["Part 1"])] ∧
    consolidatedTracks ["Intro", "Part 1", "Part 2"] = ["Part 2", "Intro" ++ " (with 1 parts)"] :=
  c2_amended_single_part_grouping "Intro" "Part 1" "Part 2"
    (by decide) (by decide) (by decide) (by decide)

/-! ## Bounds on the similarity primitives -/

theorem foldl_invariant_mem {α β : Type} (P : β → Prop) (f : β → α → β) :
    ∀ (l : List α) (init : β), P init → (∀ b a, a ∈ l → P b → P (f b a)) →
      P (l.foldl f init) := by
  intro l
  induction l with
  | nil => intro init h0 _; exact h0
  | cons a rest ih =>
    intro init h0 hstep
    rw [List.foldl_cons]
    exact ih _ (hstep init a (List.mem_cons_self a rest) h0)
      (fun b x hx hb => hstep b x (List.mem_cons_of_mem a hx) hb)

theorem commonPrefixLen_le_left : ∀ a b : List Char, commonPrefixLen a b ≤ a.length := by
  intro a
  induction a with
  | nil => intro b; cases b <;> simp [commonPrefixLen]
  | cons x xs ih =>
    intro b
    cases b with
    | nil => simp [commonPrefixLen]
    | cons y ys =>
      rw [commonPrefixLen]
      split
      · simpa using ih ys
      · simp

theorem commonPrefixLen_le_right : ∀ a b : List Char, commonPrefixLen a b ≤ b.length := by
  intro a
  induction a with
  | nil => intro b; cases b <;> simp [commonPrefixLen]
  | cons x xs ih =>
    intro b
    cases b with
    | nil => simp [commonPrefixLen]
    | cons y ys =>
      rw [commonPrefixLen]
      split
      · simpa using ih ys
      · simp

theorem bestBlock_bounds (a b : List Char) :
    (bestBlock a b).2.2 ≤ a.length - (bestBlock a b).1 ∧
    (bestBlock a b).2.2 ≤ b.length - (bestBlock a b).2.1 := by
  rw [bestBlock]
  refine foldl_invariant_mem
    (fun t : Nat × Nat × Nat => t.2.2 ≤ a.length - t.1 ∧ t.2.2 ≤ b.length - t.2.1)
    _ _ _ (by simp) ?_
  intro acc i _ hacc
  refine foldl_invariant_mem
    (fun t : Nat × Nat × Nat => t.2.2 ≤ a.length - t.1 ∧ t.2.2 ≤ b.length - t.2.1)
    _ _ _ hacc ?_
  intro acc2 j _ hacc2
  dsimp only
  split
  · constructor
    · simpa using commonPrefixLen_le_left (a.drop i) (b.drop j)
    · simpa using commonPrefixLen_le_right (a.drop i) (b.drop j)
  · exact hacc2

theorem matchSumGo_le (fuel : Nat) : ∀ a b : List Char,
    matchSumGo fuel a b ≤ a.length ∧ matchSumGo fuel a b ≤ b.length := by
  induction fuel with
  | zero => intro a b; simp [matchSumGo]
  | succ n ih =>
    intro a b
    simp only [matchSumGo]
    split
    · simp
    · obtain ⟨hb1, hb2⟩ := bestBlock_bounds a b
      obtain ⟨l1, l2⟩ := ih (a.take (bestBlock a b).1) (b.take (bestBlock a b).2.1)
      obtain ⟨r1, r2⟩ := ih (a.drop ((bestBlock a b).1 + (bestBlock a b).2.2))
        (b.drop ((bestBlock a b).2.1 + (bestBlock a b).2.2))
      simp only [List.length_take, List.length_drop] at l1 l2 r1 r2
      constructor <;> omega

theorem matchSum_le_left (a b : List Char) : matchSum a b ≤ a.length :=
  (matchSumGo_le _ a b).1

theorem matchSum_le_right (a b : List Char) : matchSum a b ≤ b.length :=
  (matchSumGo_le _ a b).2

theorem pyRatio_le_one (a b : List Char) : pyRatio a b ≤ 1 := by
  rw [pyRatio]
  split
  · exact le_refl 1
  · rename_i h
    have hpos : (0 : ℚ) < (a.length : ℚ) + (b.length : ℚ) := by
      have : 0 < a.length + b.length := Nat.pos_of_ne_zero h
      exact_mod_cast this
    rw [div_le_one hpos]
    have h1 := matchSum_le_left a b
    have h2 := matchSum_le_right a b
    have : 2 * matchSum a b ≤ a.length + b.length := by omega
    exact_mod_cast this

theorem wordCommonCount_le_shorter (m o : List Char) :
    wordCommonCount m o ≤ wordShorter m o := by
  rw [wordCommonCount, wordShorter]
  refine le_min (List.length_filter_le _ _) ?_
  have hnd : ((wordSet m).filter (fun w => (wordSet o).contains w)).Nodup :=
    List.Nodup.filter _ (List.nodup_dedup _)
  have hsub : ((wordSet m).filter (fun w => (wordSet o).contains w)) ⊆ wordSet o := by
    intro x hx
    exact List.mem_of_elem_eq_true (List.mem_filter.mp hx).2
  calc ((wordSet m).filter (fun w => (wordSet o).contains w)).length
      = ((wordSet m).filter (fun w => (wordSet o).contains w)).toFinset.card :=
        (List.toFinset_card_of_nodup hnd).symm
    _ ≤ (wordSet o).toFinset.card := by
        apply Finset.card_le_card
        intro x hx
        rw [List.mem_toFinset] at hx ⊢
        exact hsub hx
    _ ≤ (wordSet o).length := List.toFinset_card_le _

theorem wordOverlapFires_shorter_pos (m o : List Char) (h : wordOverlapFires m o = true) :
    0 < wordShorter m o := by
  rw [wordOverlapFires, Bool.and_eq_true, decide_eq_true_eq, decide_eq_true_eq] at h
  exact h.1

theorem track_pair_similarity_fst_le_one (m o : List Char) :
    (track_pair_similarity m o).1 ≤ 1 := by
  rw [track_pair_similarity]
  split
  · rename_i hf
    have hs : 0 < wordShorter m o := wordOverlapFires_shorter_pos m o hf
    dsimp only
    refine max_le (by norm_num) ?_
    rw [div_le_one (by exact_mod_cast hs)]
    exact_mod_cast wordCommonCount_le_shorter m o
  · split
    · exact max_le (by norm_num) (pyRatio_le_one m o)
    · exact pyRatio_le_one m o

/-! ## Self-similarity of a normalized entry -/

theorem pySplitGo_ne_nil : ∀ (s : List Char) (fuel : Nat) (acc : List Char),
    acc ≠ [] → pySplitGo fuel acc s ≠ [] := by
  intro s
  induction s with
  | nil =>
    intro fuel acc h
    cases fuel <;> simp [pySplitGo, h]
  | cons c rest ih =>
    intro fuel acc h
    cases fuel with
    | zero => simp [pySplitGo, h]
    | succ n =>
      by_cases hc : pySpace c = true
      · rw [pySplitGo, if_pos hc, if_neg h]
        simp
      · rw [pySplitGo, if_neg hc]
        exact ih n (c :: acc) (by simp)

theorem dropWhile_head_not (p : Char → Bool) :
    ∀ (l : List Char) (c : Char) (t : List Char), l.dropWhile p = c :: t → p c = false := by
  intro l
  induction l with
  | nil => intro c t h; cases h
  | cons a rest ih =>
    intro c t h
    rw [List.dropWhile_cons] at h
    split at h
    · exact ih c t h
    · rename_i hpa
      injection h with h1 h2
      subst h1
      simpa using hpa

theorem normChars_head_not_space (x : List Char) (c : Char) (t : List Char)
    (h : normChars x = c :: t) : pySpace c = false := by
  rw [normChars, pyStrip] at h
  have h2 : ((collapseWs (normRaw x)).dropWhile pySpace).reverse.dropWhile pySpace
      = (c :: t).reverse := by
    have h3 := congrArg List.reverse h
    rwa [List.reverse_reverse] at h3
  have hsuffix : ((collapseWs (normRaw x)).dropWhile pySpace).reverse.dropWhile pySpace <:+
      ((collapseWs (normRaw x)).dropWhile pySpace).reverse := List.dropWhile_suffix pySpace
  obtain ⟨w, hw⟩ := hsuffix
  rw [h2] at hw
  have h4 := congrArg List.reverse hw
  rw [List.reverse_append, List.reverse_reverse, List.reverse_reverse] at h4
  exact dropWhile_head_not pySpace _ c (t ++ w.reverse) (by rw [← h4]; rfl)

theorem pySplit_normChars_ne_nil (x : List Char) (h : normChars x ≠ []) :
    pySplit (normChars x) ≠ [] := by
  cases hE : normChars x with
  | nil => exact absurd hE h
  | cons c t =>
    have hc : pySpace c = false := normChars_head_not_space x c t hE
    rw [pySplit, List.length_cons, pySplitGo, if_neg (by simp [hc])]
    exact pySplitGo_ne_nil t t.length [c] (by simp)

theorem track_pair_similarity_self (m : List Char) (hm : pySplit m = [] → m = []) :
    (track_pair_similarity m m).1 = 1 := by
  by_cases hsplit : pySplit m = []
  · rw [hm hsplit, track_pair_similarity_nil_left]
    have hr : pyRatio [] [] = 1 := by rw [pyRatio]; simp
    rw [hr]
    exact max_eq_right (by norm_num)
  · have hws : wordSet m ≠ [] := by
      rw [wordSet]
      simpa [List.dedup_eq_nil] using hsplit
    have hlen : 0 < (wordSet m).length := List.length_pos.mpr hws
    have hfilter : (wordSet m).filter (fun w => (wordSet m).contains w) = wordSet m :=
      List.filter_eq_self.mpr (fun a ha => List.elem_eq_true_of_mem ha)
    have hc : wordCommonCount m m = (wordSet m).length := by
      rw [wordCommonCount, hfilter]
    have hs : wordShorter m m = (wordSet m).length := by
      rw [wordShorter, min_self]
    have hdivle : 3 * (wordSet m).length / 5 ≤ (wordSet m).length := by
      calc 3 * (wordSet m).length / 5 ≤ 5 * (wordSet m).length / 5 :=
            Nat.div_le_div_right (by omega)
        _ = (wordSet m).length := Nat.mul_div_cancel_left _ (by norm_num)
    have hfire : wordOverlapFires m m = true := by
      rw [wordOverlapFires, hc, hs]
      simp only [Bool.and_eq_true, decide_eq_true_eq]
      exact ⟨hlen, max_le hlen hdivle⟩
    rw [track_pair_similarity, if_pos hfire, hc, hs]
    have hdd : ((wordSet m).length : ℚ) / ((wordSet m).length : ℚ) = 1 :=
      div_self (by exact_mod_cast hlen.ne')
    rw [hdd]
    exact max_eq_right (by norm_num)

theorem matchOne_self_best (m : List Char) (os : List (List Char))
    (hmem : m ∈ os) (hw : hasWithParts m = false) (hm : pySplit m = [] → m = []) :
    (matchOne m os).best = 1 := by
  rw [matchOne, hw]
  simp only [Bool.false_eq_true, if_false]
  apply le_antisymm
  · exact subStep_fold_best_le m os.enum _ 1 (by norm_num)
      (fun jt _ => track_pair_similarity_fst_le_one m jt.2)
  · have hmem2 : m ∈ os.enum.map Prod.snd := by
      rw [List.enum_map_snd]
      exact hmem
    obtain ⟨jt, hjt, hjm⟩ := List.mem_map.mp hmem2
    have := subStep_fold_best_ge m os.enum ⟨0, -1, false, false⟩ jt hjt
    rw [hjm, track_pair_similarity_self m hm] at this
    exact this

theorem multiPartGroups_eq_nil (A : List String) (h : ∀ a ∈ A, isPartEntry a = false) :
    multiPartGroups A = [] := by
  rw [multiPartGroups]
  refine foldl_invariant_mem (fun g => g = []) _ _ _ rfl ?_
  intro g it hit hg
  have hsnd : it.2 ∈ A := by
    have := List.mem_map_of_mem Prod.snd hit
    rwa [List.enum_map_snd] at this
  rw [h it.2 hsnd]
  simp [hg]

theorem consolidatedTracks_of_groups_nil (A : List String) (hg : multiPartGroups A = []) :
    consolidatedTracks A = A := by
  rw [consolidatedTracks, hg]
  simp [List.filter_eq_self]

/-- C5 (amended): self-comparison scores exactly 100 for every
nonempty list with no Part/Movement entries (so no consolidation) and
no entry whose normalized form contains both "with" and "parts" (so no
entry is routed into the 0.95-capped multi-part branch). -/
theorem c5_amended_self_similarity (A : List String) (hA : A ≠ [])
    (hpart : ∀ a ∈ A, isPartEntry a = false)
    (hwp : ∀ a ∈ A, hasWithParts (normChars a.data) = false) :
    calculate_track_similarity A A = 100 := by
  have hg : multiPartGroups A = [] := multiPartGroups_eq_nil A hpart
  have hcons : consolidatedTracks A = A := consolidatedTracks_of_groups_nil A hg
  rw [calc_eq_branch A A hA hA, if_neg (by simp [hg])]
  simp only [raw_similarity_percent]
  rw [hcons, matchesTotal_eq_sum]
  have hbest : ∀ m ∈ normTracks A, (matchOne m (normTracks A)).best = 1 := by
    intro m hm
    obtain ⟨a, ha, rfl⟩ := List.mem_map.mp hm
    exact matchOne_self_best _ _ hm (hwp a ha)
      (fun hs => by
        by_contra hne
        exact pySplit_normChars_ne_nil a.data hne hs)
  have hmap : (normTracks A).map (fun m =>
      let st := matchOne m (normTracks A)
      if (4 : ℚ)/5 ≤ st.best then st.best else (0 : ℚ)) =
      (normTracks A).map (fun _ => (1 : ℚ)) := by
    apply List.map_congr_left
    intro m hm
    simp only [hbest m hm]
    norm_num
  rw [hmap, List.map_const', List.sum_replicate]
  have h1 : (normTracks A).length ≠ 0 := by
    simpa [normTracks, List.length_eq_zero] using hA
  have hlen0 : ((normTracks A).length : ℚ) ≠ 0 := Nat.cast_ne_zero.mpr h1
  rw [nsmul_eq_mul, mul_one, div_self hlen0, one_mul]

/-- C5 witness: a one-entry list with an ordinary title self-scores
100. -/
theorem c5_amended_self_similarity_witness :
    calculate_track_similarity ["hello world"] ["hello world"] = 100 :=
  c5_amended_self_similarity ["hello world"] (by decide) (by decide) (by decide)

/-! ## Idempotence of the normalizer (C6) -/

theorem char_toNat_ofNat (n : Nat) (h : n.isValidChar) : (Char.ofNat n).toNat = n := by
  rw [Char.ofNat, dif_pos h]
  rfl

theorem toLower_idem (c : Char) : c.toLower.toLower = c.toLower := by
  by_cases h : c.toNat ≥ 65 ∧ c.toNat ≤ 90
  · have h1 : c.toLower = Char.ofNat (c.toNat + 32) := by
      rw [Char.toLower, if_pos h]
    have hv : (c.toNat + 32).isValidChar := Or.inl (by omega)
    have h2 : c.toLower.toNat = c.toNat + 32 := by
      rw [h1]
      exact char_toNat_ofNat _ hv
    rw [Char.toLower, h2, if_neg (by omega)]
  · have h1 : c.toLower = c := by rw [Char.toLower, if_neg h]
    rw [h1, h1]

theorem mem_pyLower_toLower_fixed (l : List Char) (c : Char) (h : c ∈ pyLower l) :
    c.toLower = c := by
  obtain ⟨d, _, rfl⟩ := List.mem_map.mp h
  exact toLower_idem d

theorem mem_replaceAllGo (pat repl : List Char) :
    ∀ (fuel : Nat) (s : List Char) (c : Char),
      c ∈ replaceAllGo pat repl fuel s → c ∈ repl ∨ c ∈ s := by
  intro fuel
  induction fuel with
  | zero =>
    intro s c h
    cases s with
    | nil => cases h
    | cons a t => exact Or.inr h
  | succ n ih =>
    intro s c h
    cases s with
    | nil => cases h
    | cons a t =>
      rw [replaceAllGo] at h
      split at h
      · rcases List.mem_append.mp h with h | h
        · exact Or.inl h
        · rcases ih _ c h with h | h
          · exact Or.inl h
          · exact Or.inr (List.mem_of_mem_drop h)
      · rcases List.mem_cons.mp h with h | h
        · exact Or.inr (h ▸ List.mem_cons_self a t)
        · rcases ih _ c h with h | h
          · exact Or.inl h
          · exact Or.inr (List.mem_cons_of_mem a h)

theorem mem_replaceAll (pat repl s : List Char) (c : Char) (h : c ∈ replaceAll pat repl s) :
    c ∈ repl ∨ c ∈ s :=
  mem_replaceAllGo pat repl s.length s c h

theorem mem_scanSubGo (m : List Char → Option Nat) :
    ∀ (fuel : Nat) (s : List Char) (c : Char), c ∈ scanSubGo m fuel s → c ∈ s := by
  intro fuel
  induction fuel with
  | zero =>
    intro s c h
    cases s with
    | nil => cases h
    | cons a t => exact h
  | succ n ih =>
    intro s c h
    cases s with
    | nil => cases h
    | cons a t =>
      rw [scanSubGo] at h
      split at h
      · exact List.mem_of_mem_drop (ih _ c h)
      · rcases List.mem_cons.mp h with h | h
        · exact h ▸ List.mem_cons_self a t
        · exact List.mem_cons_of_mem a (ih _ c h)

theorem mem_scanSub (m : List Char → Option Nat) (s : List Char) (c : Char)
    (h : c ∈ scanSub m s) : c ∈ s :=
  mem_scanSubGo m s.length s c h

theorem mem_collapseWs : ∀ (l : List Char) (c : Char), c ∈ collapseWs l → c = ' ' ∨ c ∈ l := by
  intro l
  induction l with
  | nil => intro c h; cases h
  | cons a t ih =>
    intro c h
    cases t with
    | nil =>
      rw [collapseWs] at h
      split at h
      · exact Or.inl (List.mem_singleton.mp h)
      · exact Or.inr (List.mem_singleton.mp h ▸ List.mem_cons_self a [])
    | cons d rest =>
      rw [collapseWs] at h
      split at h
      · rcases ih c h with h | h
        · exact Or.inl h
        · exact Or.inr (List.mem_cons_of_mem a h)
      · rcases List.mem_cons.mp h with h | h
        · subst h
          split
          · exact Or.inl rfl
          · exact Or.inr (List.mem_cons_self a _)
        · rcases ih c h with h | h
          · exact Or.inl h
          · exact Or.inr (List.mem_cons_of_mem a h)

theorem mem_pyStrip (l : List Char) (c : Char) (h : c ∈ pyStrip l) : c ∈ l := by
  rw [pyStrip] at h
  rw [List.mem_reverse] at h
  have h2 := (List.dropWhile_sublist pySpace).subset h
  rw [List.mem_reverse] at h2
  exact (List.dropWhile_sublist pySpace).subset h2

theorem normRaw_toLower_fixed (y : List Char) : ∀ c ∈ normRaw y, c.toLower = c := by
  intro c h
  simp only [normRaw] at h
  replace h := (List.mem_filter.mp h).1
  replace h := mem_scanSub _ _ _ h
  replace h := mem_scanSub _ _ _ h
  rcases mem_replaceAll _ _ _ _ h with h | h
  · cases h
  rcases mem_replaceAll _ _ _ _ h with h | h
  · cases h
  rcases mem_replaceAll _ _ _ _ h with h | h
  · cases h
  rcases mem_replaceAll _ _ _ _ h with h | h
  · cases h
  rcases mem_replaceAll _ _ _ _ h with h | h
  · exact (show ∀ d ∈ " is ".toList, d.toLower = d by decide) c h
  rcases mem_replaceAll _ _ _ _ h with h | h
  · exact (show ∀ d ∈ " is ".toList, d.toLower = d by decide) c h
  split at h
  · rcases List.mem_append.mp h with h | h
    · exact mem_pyLower_toLower_fixed y c (List.mem_of_mem_drop h)
    · exact (show ∀ d ∈ ", the".toList, d.toLower = d by decide) c h
  · exact mem_pyLower_toLower_fixed y c h

theorem normChars_toLower_fixed (y : List Char) : ∀ c ∈ normChars y, c.toLower = c := by
  intro c h
  rw [normChars] at h
  replace h := mem_pyStrip _ _ h
  rcases mem_collapseWs _ _ h with h | h
  · subst h; decide
  · exact normRaw_toLower_fixed y c h

theorem normChars_chars_ok (y : List Char) :
    ∀ c ∈ normChars y, (pyWordChar c || pySpace c) = true := by
  intro c h
  rw [normChars] at h
  replace h := mem_pyStrip _ _ h
  rcases mem_collapseWs _ _ h with h | h
  · subst h; decide
  · simp only [normRaw] at h
    exact (List.mem_filter.mp h).2

theorem pyLower_eq_self (l : List Char) (h : ∀ c ∈ l, c.toLower = c) : pyLower l = l := by
  rw [pyLower]
  induction l with
  | nil => rfl
  | cons a t ih =>
    rw [List.map_cons, h a (List.mem_cons_self a t),
      ih (fun c hc => h c (List.mem_cons_of_mem a hc))]

theorem isSubstr_cons (pat : List Char) (c : Char) (rest : List Char) :
    isSubstr pat (c :: rest) = (pat.isPrefixOf (c :: rest) || isSubstr pat rest) := rfl

theorem isSubstr_iff_infixRel (pat s : List Char) : isSubstr pat s = true ↔ pat <:+: s := by
  induction s with
  | nil =>
    show (isSubstrGo pat 0 []) = true ↔ _
    rw [isSubstrGo]
    rw [List.isEmpty_iff]
    constructor
    · rintro rfl; exact List.nil_infix
    · intro h
      exact List.eq_nil_of_infix_nil h
  | cons c rest ih =>
    rw [isSubstr_cons, Bool.or_eq_true, ih, List.isPrefixOf_iff_prefix, List.infix_cons_iff]

theorem replaceAllGo_id (pat repl : List Char) :
    ∀ (fuel : Nat) (s : List Char), isSubstr pat s = false → replaceAllGo pat repl fuel s = s := by
  intro fuel
  induction fuel with
  | zero =>
    intro s _
    cases s <;> rfl
  | succ n ih =>
    intro s h
    cases s with
    | nil => rfl
    | cons c rest =>
      rw [isSubstr_cons, Bool.or_eq_false_iff] at h
      rw [replaceAllGo, if_neg (by simp [h.1]), ih rest h.2]

theorem replaceAll_id (pat repl s : List Char) (h : isSubstr pat s = false) :
    replaceAll pat repl s = s :=
  replaceAllGo_id pat repl s.length s h

theorem scanSubGo_id (mf : List Char → Option Nat) :
    ∀ (fuel : Nat) (s : List Char), (∀ t, t <:+ s → mf t = none) →
      scanSubGo mf fuel s = s := by
  intro fuel
  induction fuel with
  | zero =>
    intro s _
    cases s <;> rfl
  | succ n ih =>
    intro s h
    cases s with
    | nil => rfl
    | cons c rest =>
      rw [scanSubGo, h (c :: rest) (List.suffix_refl _)]
      rw [ih rest (fun t ht => h t (ht.trans (List.suffix_cons c rest)))]

theorem scanSub_id (mf : List Char → Option Nat) (s : List Char)
    (h : ∀ t, t <:+ s → mf t = none) : scanSub mf s = s :=
  scanSubGo_id mf s.length s h

theorem parenMatch_none (t : List Char) (h : '(' ∉ t) : parenMatch t = none := by
  rw [parenMatch]
  have hfalse : "(".toList.isPrefixOf (t.drop (t.takeWhile pySpace).length) = false := by
    cases hr : t.drop (t.takeWhile pySpace).length with
    | nil => rfl
    | cons d u =>
      have hd : d ∈ t := List.mem_of_mem_drop (hr ▸ List.mem_cons_self d u)
      have hne : d ≠ '(' := fun hEq => h (hEq ▸ hd)
      show (('(' == d) && List.isPrefixOf [] u) = false
      simp [hne.symm]
  rw [if_neg (fun hh => Bool.false_ne_true (hfalse ▸ hh))]

theorem withParenMatch_none (t : List Char) (h : '(' ∉ t) : withParenMatch t = none := by
  rw [withParenMatch]
  have hfalse : "(with ".toList.isPrefixOf (t.drop (t.takeWhile pySpace).length) = false := by
    cases hr : t.drop (t.takeWhile pySpace).length with
    | nil => rfl
    | cons d u =>
      have hd : d ∈ t := List.mem_of_mem_drop (hr ▸ List.mem_cons_self d u)
      have hne : d ≠ '(' := fun hEq => h (hEq ▸ hd)
      show (('(' == d) && List.isPrefixOf "with ".toList u) = false
      simp [hne.symm]
  rw [if_neg (fun hh => Bool.false_ne_true (hfalse ▸ hh))]

/-- Adjacent characters are never both whitespace. -/
def noTwoSpaces (a b : Char) : Prop :=
  ¬(pySpace a = true ∧ pySpace b = true)

theorem spaces_of_collapseWs :
    ∀ (l : List Char) (c : Char), c ∈ collapseWs l → pySpace c = true → c = ' ' := by
  intro l
  induction l with
  | nil => intro c h; cases h
  | cons a t ih =>
    intro c h hsp
    cases t with
    | nil =>
      rw [collapseWs] at h
      split at h
      · exact List.mem_singleton.mp h
      · rename_i ha
        rw [List.mem_singleton.mp h] at hsp
        exact absurd hsp (by simpa using ha)
    | cons d rest =>
      rw [collapseWs] at h
      split at h
      · exact ih c h hsp
      · rcases List.mem_cons.mp h with h | h
        · subst h
          cases hpa : pySpace a with
          | true => simp [hpa]
          | false => simp [hpa] at hsp
        · exact ih c h hsp

theorem head?_collapseWs_not_space (d : Char) (t : List Char) (hd : pySpace d = false) :
    (collapseWs (d :: t)).head? = some d := by
  cases t with
  | nil => simp [collapseWs, hd]
  | cons e rest => simp [collapseWs, hd]

theorem collapseWs_chain' (l : List Char) : List.Chain' noTwoSpaces (collapseWs l) := by
  induction l with
  | nil => simp [collapseWs]
  | cons a t ih =>
    cases t with
    | nil =>
      rw [collapseWs]
      split <;> exact List.chain'_singleton _
    | cons d rest =>
      by_cases hb : (pySpace a && pySpace d) = true
      · rw [collapseWs, if_pos hb]
        exact ih
      · rw [collapseWs, if_neg hb]
        rw [List.chain'_cons']
        refine ⟨?_, ih⟩
        intro b hb'
        by_cases hd : pySpace d = true
        · have ha : pySpace a = false := by
            cases hpa : pySpace a
            · rfl
            · exact absurd (by simp [hpa, hd]) hb
          rw [if_neg (by simp [ha])]
          exact fun hcontra => by simp [ha] at hcontra
        · rw [head?_collapseWs_not_space d rest (by simpa using hd)] at hb'
          have hbd : d = b := by simpa using hb'
          subst hbd
          exact fun hcontra => hd hcontra.2

theorem chain'_pyStrip (l : List Char) (h : List.Chain' noTwoSpaces l) :
    List.Chain' noTwoSpaces (pyStrip l) := by
  have hsymm : ∀ a b : Char, noTwoSpaces a b → noTwoSpaces b a := by
    intro a b hab hc
    exact hab ⟨hc.2, hc.1⟩
  have hrev : ∀ m : List Char, List.Chain' noTwoSpaces m →
      List.Chain' noTwoSpaces m.reverse := by
    intro m hm
    rw [List.chain'_reverse]
    exact hm.imp hsymm
  rw [pyStrip]
  exact hrev _ ((hrev _ (h.suffix (List.dropWhile_suffix pySpace))).suffix
    (List.dropWhile_suffix pySpace))

theorem collapseWs_eq_self (l : List Char)
    (hsp : ∀ c ∈ l, pySpace c = true → c = ' ')
    (hch : List.Chain' noTwoSpaces l) : collapseWs l = l := by
  induction l with
  | nil => rfl
  | cons a t ih =>
    cases t with
    | nil =>
      rw [collapseWs]
      split
      · rename_i ha
        rw [hsp a (List.mem_cons_self a []) ha]
      · rfl
    | cons d rest =>
      have hR : noTwoSpaces a d := (List.chain'_cons.mp hch).1
      have hb : (pySpace a && pySpace d) = false := by
        cases hpa : pySpace a
        · rfl
        · cases hpd : pySpace d
          · rfl
          · exact absurd ⟨hpa, hpd⟩ hR
      rw [collapseWs, if_neg (by simp [hb])]
      have htail : collapseWs (d :: rest) = d :: rest :=
        ih (fun c hc hc2 => hsp c (List.mem_cons_of_mem a hc) hc2)
          (List.chain'_cons.mp hch).2
      rw [htail]
      split
      · rename_i ha
        rw [hsp a (List.mem_cons_self a _) ha]
      · rfl

theorem pyStrip_eq_self (l : List Char)
    (hh : ∀ c t, l = c :: t → pySpace c = false)
    (hl : ∀ c t, l.reverse = c :: t → pySpace c = false) : pyStrip l = l := by
  cases hL : l with
  | nil => rfl
  | cons a t =>
    have ha : pySpace a = false := hh a t hL
    rw [pyStrip, List.dropWhile_cons, if_neg (by simp [ha])]
    cases hrev : (a :: t).reverse with
    | nil => simp at hrev
    | cons d u =>
      have hd : pySpace d = false := hl d u (by rw [hL, hrev])
      have hnd : ¬(pySpace d = true) := by simp [hd]
      rw [List.dropWhile_cons, if_neg hnd, ← hrev, List.reverse_reverse]

theorem normChars_reverse_head_not_space (x : List Char) (c : Char) (t : List Char)
    (h : (normChars x).reverse = c :: t) : pySpace c = false := by
  rw [normChars, pyStrip, List.reverse_reverse] at h
  exact dropWhile_head_not pySpace _ c t h

/- During the following closure proofs the elaborator must not unfold
`normRaw` applied to symbolic arguments (the fuelled scanners inside it
make such reductions explode); every needed unfolding goes through its
equation lemma.  Reducibility is restored right after for the concrete
witness evaluations. -/
attribute [irreducible] normRaw

theorem chain'_strip_collapse (m : List Char) :
    List.Chain' noTwoSpaces (pyStrip (collapseWs m)) :=
  chain'_pyStrip (collapseWs m) (collapseWs_chain' m)

theorem normChars_fixed (y : List Char)
    (h1 : "the ".toList.isPrefixOf (normChars y) = false)
    (h2 : isSubstr " is a ".toList (normChars y) = false)
    (h3 : isSubstr " is the ".toList (normChars y) = false)
    (h4 : isSubstr "stripped".toList (normChars y) = false)
    (h5 : isSubstr "edit".toList (normChars y) = false) :
    normChars (normChars y) = normChars y := by
  have hinfRel : ∀ pat big : List Char, pat <:+: big →
      isSubstr pat (normChars y) = false → isSubstr big (normChars y) = false := by
    intro pat big hpb hp
    cases hq : isSubstr big (normChars y)
    · rfl
    · exfalso
      have hinf : big <:+: normChars y := (isSubstr_iff_infixRel big (normChars y)).mp hq
      have hps : isSubstr pat (normChars y) = true :=
        (isSubstr_iff_infixRel pat (normChars y)).mpr (hpb.trans hinf)
      rw [hp] at hps
      cases hps
  have h4p : isSubstr "(stripped)".toList (normChars y) = false :=
    hinfRel "stripped".toList "(stripped)".toList (by decide) h4
  have h5p : isSubstr "(edit)".toList (normChars y) = false :=
    hinfRel "edit".toList "(edit)".toList (by decide) h5
  have hA : ∀ c ∈ normChars y, c.toLower = c := normChars_toLower_fixed y
  have hB : ∀ c ∈ normChars y, (pyWordChar c || pySpace c) = true := normChars_chars_ok y
  have hparen : '(' ∉ normChars y := by
    intro hc
    exact absurd (hB '(' hc) (by decide)
  have hlow : pyLower (normChars y) = normChars y := pyLower_eq_self (normChars y) hA
  have hraw : normRaw (normChars y) = normChars y := by
    simp only [normRaw]
    rw [hlow, h1]
    simp only [Bool.false_eq_true, if_false]
    rw [replaceAll_id " is a ".toList " is ".toList (normChars y) h2,
      replaceAll_id " is the ".toList " is ".toList (normChars y) h3,
      replaceAll_id "(stripped)".toList [] (normChars y) h4p,
      replaceAll_id "(edit)".toList [] (normChars y) h5p,
      replaceAll_id "stripped".toList [] (normChars y) h4,
      replaceAll_id "edit".toList [] (normChars y) h5]
    rw [scanSub_id withParenMatch (normChars y)
      (fun t ht => withParenMatch_none t (fun hc => hparen (ht.subset hc)))]
    rw [scanSub_id parenMatch (normChars y)
      (fun t ht => parenMatch_none t (fun hc => hparen (ht.subset hc)))]
    exact List.filter_eq_self.mpr hB
  have hsp2 : ∀ c ∈ normChars y, pySpace c = true → c = ' ' := by
    intro c hc hsc
    rw [normChars] at hc
    exact spaces_of_collapseWs (normRaw y) c
      (mem_pyStrip (collapseWs (normRaw y)) c hc) hsc
  have hch : List.Chain' noTwoSpaces (normChars y) := by
    rw [normChars]
    generalize normRaw y = m
    exact chain'_strip_collapse m
  have hcol : collapseWs (normChars y) = normChars y :=
    collapseWs_eq_self (normChars y) hsp2 hch
  have hstr : pyStrip (normChars y) = normChars y := pyStrip_eq_self (normChars y)
    (fun c t hct => normChars_head_not_space y c t hct)
    (fun c t hct => normChars_reverse_head_not_space y c t hct)
  calc normChars (normChars y)
      = pyStrip (collapseWs (normRaw (normChars y))) := by rw [normChars]
    _ = pyStrip (collapseWs (normChars y)) := by rw [hraw]
    _ = pyStrip (normChars y) := by rw [hcol]
    _ = normChars y := hstr

/-- C6 (amended): the normalizer is idempotent on every string whose
normalized form does not start with "the " and contains none of
" is a ", " is the ", "stripped", "edit" as substrings; it is not
idempotent in general (see the counterexample). -/
theorem c6_amended_idempotent (x : String)
    (h1 : "the ".toList.isPrefixOf (normalize_track x).data = false)
    (h2 : isSubstr " is a ".toList (normalize_track x).data = false)
    (h3 : isSubstr " is the ".toList (normalize_track x).data = false)
    (h4 : isSubstr "stripped".toList (normalize_track x).data = false)
    (h5 : isSubstr "edit".toList (normalize_track x).data = false) :
    normalize_track (normalize_track x) = normalize_track x := by
  rw [normalize_track_data] at h1 h2 h3 h4 h5
  apply String.ext
  rw [normalize_track_data, normalize_track_data]
  exact normChars_fixed x.data h1 h2 h3 h4 h5

attribute [semireducible] normRaw

/-- C6 witness: "Hello World" normalizes to "hello world", on which the
normalizer is idempotent. -/
theorem c6_amended_idempotent_witness :
    normalize_track (normalize_track "Hello World") = normalize_track "Hello World" :=
  c6_amended_idempotent "Hello World" (by decide) (by decide) (by decide) (by decide) (by decide)

/-! ## Track extraction (C9)

Hand-compiled scanners for the regular expressions of
`extract_tracks_from_metadata` and `extract_tracks_from_oclc`, with
Python's leftmost-match, greedy/lazy and backtracking behaviour made
explicit.  All scanners are fueled by the input length; every match
consumes at least one character. -/

/-- Consume an exact literal prefix. -/
def stripLit (lit s : List Char) : Option (List Char) :=
  if lit.isPrefixOf s then some (s.drop lit.length) else none

/-- `re.search`: try the matcher at every position, leftmost first. -/
def searchFirstGo {α : Type} (f : List Char → Option α) : Nat → List Char → Option α
  | _, [] => f []
  | 0, s => f s
  | fuel + 1, c :: rest =>
    match f (c :: rest) with
    | some r => some r
    | none => searchFirstGo f fuel rest

def searchFirst {α : Type} (f : List Char → Option α) (s : List Char) : Option α :=
  searchFirstGo f s.length s

/-- `re.finditer` / `re.findall`: collect non-overlapping leftmost
matches; a matcher returns the rest of the input after the match and
the captured group. -/
def findIterGo {α : Type} (f : List Char → Option (List Char × α)) :
    Nat → List Char → List α
  | _, [] => []
  | 0, _ => []
  | fuel + 1, c :: rest =>
    match f (c :: rest) with
    | some (r, a) => a :: findIterGo f fuel r
    | none => findIterGo f fuel rest

def findIter {α : Type} (f : List Char → Option (List Char × α)) (s : List Char) : List α :=
  findIterGo f s.length s

/-- Backtracking `\s*` (or any star class) followed by a nonempty
greedy run of `contP` and a suffix check: Python prefers the longest
star part for which a nonempty group and the suffix still match. -/
def gstMatch (starP contP : Char → Bool) (after : List Char → Option (List Char))
    (s : List Char) : Option (List Char × List Char) :=
  let u := s.takeWhile starP
  (List.range (u.length + 1)).reverse.findSome? (fun k =>
    let grp := (s.drop k).takeWhile contP
    if grp = [] then none
    else
      match after ((s.drop k).drop grp.length) with
      | some rest => some (grp, rest)
      | none => none)

/-- The sentinel "no data" markers, compared against `str.lower`. -/
def isSentinel (t : List Char) : Bool :=
  let l := pyLower t
  l == "not visible".toList || l == "n/a".toList || l == "unavailable".toList ||
    l == "none".toList

/-- `Contents:\s*-\s*tracks:\s*\[(.*?)\]` at one position: the group is
everything up to the first ']'. -/
def tryContentsSection (s : List Char) : Option (List Char) := do
  let r1 ← stripLit "Contents:".toList s
  let r3 ← stripLit "-".toList (r1.dropWhile pySpace)
  let r5 ← stripLit "tracks:".toList (r3.dropWhile pySpace)
  let r7 ← stripLit "[".toList (r5.dropWhile pySpace)
  let grp := r7.takeWhile (fun c => c != ']')
  let _ ← stripLit "]".toList (r7.drop grp.length)
  some grp

/-- `\{\s*"number":\s*\d+,\s*"title":\s*"([^"]+)"` at one position. -/
def tryTrackObj (s : List Char) : Option (List Char × List Char) := do
  let r1 ← stripLit ['\x7b'] s
  let r2 ← stripLit "\"number\":".toList (r1.dropWhile pySpace)
  let d := (r2.dropWhile pySpace).takeWhile Char.isDigit
  if d = [] then none else
  let r3 ← stripLit ",".toList ((r2.dropWhile pySpace).drop d.length)
  let r4 ← stripLit "\"title\":".toList (r3.dropWhile pySpace)
  let r5 ← stripLit "\"".toList (r4.dropWhile pySpace)
  let t := r5.takeWhile (fun c => c != '"')
  if t = [] then none else
  let r6 ← stripLit "\"".toList (r5.drop t.length)
  some (r6, t)

/-- `"title":\s*([^,\n]+)` at one position, with `\s*` backtracking. -/
def tryTitleLoose (s : List Char) : Option (List Char × List Char) := do
  let r ← stripLit "\"title\":".toList s
  match gstMatch pySpace (fun c => c != ',' && c != '\n') (fun t => some t) r with
  | some (grp, rest) => some (rest, grp)
  | none => none

/-- `"number":\s*\d+,\s*"title":\s*([^,\n]+),` at one position. -/
def tryNumTitleComma (s : List Char) : Option (List Char × List Char) := do
  let r1 ← stripLit "\"number\":".toList s
  let d := (r1.dropWhile pySpace).takeWhile Char.isDigit
  if d = [] then none else
  let r2 ← stripLit ",".toList ((r1.dropWhile pySpace).drop d.length)
  let r3 ← stripLit "\"title\":".toList (r2.dropWhile pySpace)
  match gstMatch pySpace (fun c => c != ',' && c != '\n')
      (fun t => stripLit ",".toList t) r3 with
  | some (grp, rest) => some (rest, grp)
  | none => none

/-- `"number":\s*\d+,\s*"title":\s*"([^"]+)"` at one position. -/
def tryNumTitleQuoted (s : List Char) : Option (List Char × List Char) := do
  let r1 ← stripLit "\"number\":".toList s
  let d := (r1.dropWhile pySpace).takeWhile Char.isDigit
  if d = [] then none else
  let r2 ← stripLit ",".toList ((r1.dropWhile pySpace).drop d.length)
  let r3 ← stripLit "\"title\":".toList (r2.dropWhile pySpace)
  let r4 ← stripLit "\"".toList (r3.dropWhile pySpace)
  let t := r4.takeWhile (fun c => c != '"')
  if t = [] then none else
  let r5 ← stripLit "\"".toList (r4.drop t.length)
  some (r5, t)

/-- `"duration":\s*\d+:\d+`, returning the rest after the match. -/
def tryDurationTail (s : List Char) : Option (List Char) := do
  let r1 ← stripLit "\"duration\":".toList s
  let d1 := (r1.dropWhile pySpace).takeWhile Char.isDigit
  if d1 = [] then none else
  let r2 ← stripLit ":".toList ((r1.dropWhile pySpace).drop d1.length)
  let d2 := r2.takeWhile Char.isDigit
  if d2 = [] then none else
  some (r2.drop d2.length)

/-- The lazy `[^}]*?"duration":\s*\d+:\d+` tail: at each offset try the
duration field first, then skip one non-'}' character. -/
def durScan : Nat → List Char → Option (List Char)
  | fuel, s =>
    match tryDurationTail s with
    | some r => some r
    | none =>
      match fuel, s with
      | _, [] => none
      | 0, _ => none
      | fuel' + 1, c :: rest => if c = '\x7d' then none else durScan fuel' rest

/-- `"title":\s*"([^"]+)"[^}]*?"duration":\s*(\d+:\d+)` at one
position; the code keeps only the first group. -/
def tryTitleDuration (s : List Char) : Option (List Char × List Char) := do
  let r1 ← stripLit "\"title\":".toList s
  let r2 ← stripLit "\"".toList (r1.dropWhile pySpace)
  let t := r2.takeWhile (fun c => c != '"')
  if t = [] then none else
  let r3 ← stripLit "\"".toList (r2.drop t.length)
  match durScan r3.length r3 with
  | some rest => some (rest, t)
  | none => none

/-- `"title":\s*"([^"]+)"` at one position. -/
def tryTitleQuoted (s : List Char) : Option (List Char × List Char) := do
  let r1 ← stripLit "\"title\":".toList s
  let r2 ← stripLit "\"".toList (r1.dropWhile pySpace)
  let t := r2.takeWhile (fun c => c != '"')
  if t = [] then none else
  let r3 ← stripLit "\"".toList (r2.drop t.length)
  some (r3, t)

/-- `str.rstrip(',')`: remove all trailing commas. -/
def rstripCommas (t : List Char) : List Char :=
  (t.reverse.dropWhile (fun c => c == ',')).reverse

/-- The lazy `(.*?)` group of a section pattern, terminated by `term`
or by `$` (end of string, or just before a single trailing newline):
returns the group and the rest of the input after the full match. -/
def lazyUntilTerm (term : List Char → Option Nat) : Nat → List Char → (List Char × List Char)
  | _, [] => ([], [])
  | 0, s => (s, [])
  | fuel + 1, c :: rest =>
    match term (c :: rest) with
    | some n => ([], (c :: rest).drop n)
    | none =>
      match c, rest with
      | '\n', [] => ([], ['\n'])
      | _, _ =>
        let pr := lazyUntilTerm term fuel rest
        (c :: pr.1, pr.2)

/-- `\n\s*\w+:` at one position (match length on success). -/
def isSectionTermAt (s : List Char) : Option Nat :=
  match s with
  | '\n' :: r =>
    let sp := r.takeWhile pySpace
    let w := (r.drop sp.length).takeWhile pyWordChar
    if w ≠ [] && ":".toList.isPrefixOf ((r.drop sp.length).drop w.length) then
      some (1 + sp.length + w.length + 1)
    else none
  | _ => none

/-- `Track\s+list(?:ing)?:` (case-insensitive) at one position. -/
def tryLabelTrackList (s : List Char) : Option (List Char) := do
  let r ← stripPrefixCI "track".toList s
  let sp := r.takeWhile pySpace
  if sp = [] then none else
  let r2 ← stripPrefixCI "list".toList (r.drop sp.length)
  let r3 := ((stripPrefixCI "ing".toList r2).getD r2)
  stripLit ":".toList r3

/-- `(?:Track\s+list(?:ing)?|Contents|Tracks):` (case-insensitive),
alternatives in source order. -/
def tryTrackSectionLabel (s : List Char) : Option (List Char) :=
  match tryLabelTrackList s with
  | some r => some r
  | none =>
    match stripPrefixCI "contents".toList s with
    | some r => stripLit ":".toList r
    | none =>
      match stripPrefixCI "tracks".toList s with
      | some r => stripLit ":".toList r
      | none => none

/-- A labeled track section: label, `\s*`, lazy group up to
`\n\s*\w+:` or end. -/
def trySection (s : List Char) : Option (List Char × List Char) := do
  let r ← tryTrackSectionLabel s
  let r2 := r.dropWhile pySpace
  let pr := lazyUntilTerm isSectionTermAt r2.length r2
  some (pr.2, pr.1)

def pt1Class (c : Char) : Bool := c != '"' && c != '\n' && c != '('

/-- The `(?:"|\n|\(|$)` suffix of the first unstructured pattern. -/
def pt1After (r : List Char) : Option (List Char) :=
  match r with
  | [] => some []
  | c :: rest => if c == '"' || c == '\n' || c == '(' then some rest else none

/-- `(?:\d+[\.\)]\s*|"\s*)([^"\n\(]+)(?:"|\n|\(|$)` at one position. -/
def tryPt1 (s : List Char) : Option (List Char × List Char) :=
  let d := s.takeWhile Char.isDigit
  if d ≠ [] then
    match s.drop d.length with
    | c :: r =>
      if c == '.' || c == ')' then
        match gstMatch pySpace pt1Class pt1After r with
        | some (grp, rest) => some (rest, grp)
        | none => none
      else none
    | [] => none
  else
    match stripLit "\"".toList s with
    | some r =>
      match gstMatch pySpace pt1Class pt1After r with
      | some (grp, rest) => some (rest, grp)
      | none => none
    | none => none

/-- `\(\d+:\d+\)`, returning the rest after the closing paren. -/
def tryDurParen (s : List Char) : Option (List Char) := do
  let r1 ← stripLit "(".toList s
  let d1 := r1.takeWhile Char.isDigit
  if d1 = [] then none else
  let r2 ← stripLit ":".toList (r1.drop d1.length)
  let d2 := r2.takeWhile Char.isDigit
  if d2 = [] then none else
  stripLit ")".toList (r2.drop d2.length)

/-- `([^,;]+)\s*\(\d+:\d+\)` at one position: the greedy group
backtracks to the longest prefix followed by a duration. -/
def tryPt2 (s : List Char) : Option (List Char × List Char) :=
  let run := s.takeWhile (fun c => c != ',' && c != ';')
  ((List.range (run.length + 1)).reverse.findSome? (fun p =>
    if p = 0 then none else
    let r := s.drop p
    match tryDurParen (r.dropWhile pySpace) with
    | some rest => some (s.take p, rest)
    | none => none)).map (fun pr => (pr.2, pr.1))

/-- Field names filtered from the final metadata track list. -/
def isFieldName (t : List Char) : Bool :=
  let l := pyLower t
  l == "number".toList || l == "title".toList || l == "titletransliteration".toList ||
  l == "composer".toList || l == "lyricist".toList || l == "duration".toList ||
  l == "isrc".toList || l == "not applicable".toList || l == "not visible".toList

/-- Note-like or overlong entries filtered from the final list. -/
def isNoteLike (t : List Char) : Bool :=
  isSubstr "note".toList (pyLower t) || "contains".toList.isPrefixOf (pyLower t) ||
  decide (8 < (pySplit t).length)

/-- Phase 1: the `Contents: - tracks: [...]` section, JSON-like objects
first, the loose `"title":` pattern as fallback.  Appends carry no
membership check. -/
def metaPhase1 (s : List Char) : List (List Char) :=
  match searchFirst tryContentsSection s with
  | none => []
  | some content =>
    let tracks := (findIter tryTrackObj content).foldl (fun acc t =>
      if t ≠ [] && pyStrip t ≠ [] && !isSentinel t then acc ++ [pyStrip t] else acc) []
    if tracks = [] then
      (findIter tryTitleLoose content).foldl (fun acc t =>
        let t1 := pyStrip t
        let t2 := if "\"".toList.isPrefixOf t1 && t1.getLast? == some '"' then
            (t1.drop 1).dropLast else t1
        let t3 := if t2.getLast? == some ',' then t2.dropLast else t2
        if t3 ≠ [] && !isSentinel t3 then acc ++ [t3] else acc) []
    else tracks

/-- One phase-2 pattern: gated on fewer than 3 tracks so far, appends
cleaned new titles with a membership check. -/
def metaPhase2Step (s : List Char) (tracks : List (List Char))
    (matcher : List Char → Option (List Char × List Char)) : List (List Char) :=
  if tracks.length < 3 then
    (findIter matcher s).foldl (fun acc t =>
      let cleaned := rstripCommas (pyStrip t)
      if cleaned ≠ [] && !isSentinel cleaned && !acc.contains cleaned then acc ++ [cleaned]
      else acc) tracks
  else tracks

def metaPhase2 (s : List Char) (tracks0 : List (List Char)) : List (List Char) :=
  metaPhase2Step s
    (metaPhase2Step s
      (metaPhase2Step s
        (metaPhase2Step s tracks0 tryNumTitleQuoted)
        tryNumTitleComma)
      tryTitleDuration)
    tryTitleQuoted

/-- Phase 3: labeled sections scanned with the two unstructured
patterns. -/
def metaPhase3 (s : List Char) (tracks0 : List (List Char)) : List (List Char) :=
  if tracks0.length < 3 then
    (findIter trySection s).foldl (fun acc sec =>
      (findIter tryPt1 sec ++ findIter tryPt2 sec).foldl (fun acc2 t =>
        let cleaned := pyStrip t
        if cleaned ≠ [] && !isSentinel cleaned && !acc2.contains cleaned then
          acc2 ++ [cleaned]
        else acc2) acc) tracks0
  else tracks0

/-- `extract_tracks_from_metadata`. -/
def extract_tracks_from_metadata (metadata_str : String) : List String :=
  let s := metadata_str.data
  let t := metaPhase3 s (metaPhase2 s (metaPhase1 s))
  ((t.filter (fun x => !isFieldName x)).filter (fun x => !isNoteLike x)).map
    (fun l => String.mk l)

/-- `\n\s*[A-Z][a-z]+:` at one position (match length on success). -/
def isContentTermAt (s : List Char) : Option Nat :=
  match s with
  | '\n' :: r =>
    let sp := r.takeWhile pySpace
    match r.drop sp.length with
    | c :: r2 =>
      if 'A' ≤ c && c ≤ 'Z' then
        let w := r2.takeWhile (fun d => 'a' ≤ d && d ≤ 'z')
        if w ≠ [] && ":".toList.isPrefixOf (r2.drop w.length) then
          some (1 + sp.length + 1 + w.length + 1)
        else none
      else none
    | [] => none
  | _ => none

/-- `Content:\s*(.*?)(?:(?:\n\s*[A-Z][a-z]+:)|$)` at one position. -/
def tryContentField (s : List Char) : Option (List Char) := do
  let r ← stripLit "Content:".toList s
  let r2 := r.dropWhile pySpace
  some (lazyUntilTerm isContentTermAt r2.length r2).1

/-- `Description:.*?Content:\s*(.*?)...` at one position: the lazy gap
takes the first Content field after the Description label. -/
def tryDescContent (s : List Char) : Option (List Char) := do
  let r ← stripLit "Description:".toList s
  searchFirst tryContentField r

/-- `Record \d+:` or forty hyphens, at one position. -/
def isRecordTermAt (s : List Char) : Option Nat :=
  match stripLit "Record ".toList s with
  | some r =>
    let d := r.takeWhile Char.isDigit
    if d ≠ [] && ":".toList.isPrefixOf (r.drop d.length) then some (7 + d.length + 1)
    else none
  | none =>
    match stripLit (List.replicate 40 '-') s with
    | some _ => some 40
    | none => none

/-- The whole match of
`OCLC Number: <n>.*?(?:(?:Record \d+:|-Ã—40)|$)` (group 0, prefix and
terminator included). -/
def findOclcSection (results number : List Char) : Option (List Char) :=
  searchFirst (fun s =>
    match stripLit ("OCLC Number: ".toList ++ number) s with
    | some r =>
      let pr := lazyUntilTerm isRecordTermAt r.length r
      some (("OCLC Number: ".toList ++ number) ++ r.take (r.length - pr.2.length))
    | none => none) results

/-- `str.split(sep)` for a nonempty separator (keeps empty pieces). -/
def splitOnSubGo (sep : List Char) : Nat → List Char → List Char → List (List Char)
  | _, acc, [] => [acc.reverse]
  | 0, acc, s => [acc.reverse ++ s]
  | fuel + 1, acc, c :: rest =>
    if sep.isPrefixOf (c :: rest) then
      acc.reverse :: splitOnSubGo sep fuel [] ((c :: rest).drop sep.length)
    else splitOnSubGo sep fuel (c :: acc) rest

def splitOnSub (sep s : List Char) : List (List Char) :=
  splitOnSubGo sep s.length [] s

/-- `\s*/\s*[^(]+` at one position (match length on success). -/
def slashMatch (s : List Char) : Option Nat :=
  let sp := s.takeWhile pySpace
  match s.drop sp.length with
  | '/' :: r =>
    let tail := r.takeWhile (fun c => c != '(')
    if tail = [] then none else some (sp.length + 1 + tail.length)
  | _ => none

/-- The reversed tail of `\s*\(\d+[:\.]\d+\)` matched from the right:
the argument is the reversed string after the optional final dot. -/
def stripDurAfter (r : List Char) : Option (List Char) := do
  let r1 ← stripLit ")".toList r
  let d1 := r1.takeWhile Char.isDigit
  if d1 = [] then none else
  match r1.drop d1.length with
  | c :: r3 =>
    if c == ':' || c == '.' then
      let d2 := r3.takeWhile Char.isDigit
      if d2 = [] then none else
      match r3.drop d2.length with
      | '(' :: r4 => some ((r4.dropWhile pySpace).reverse)
      | _ => none
    else none
  | [] => none

/-- `re.sub(r'\s*\(\d+[:\.]\d+\)\.?$', '', t)` for inputs with no
trailing newline. -/
def stripTrailingDuration (t : List Char) : List Char :=
  match t.reverse with
  | '.' :: r => (stripDurAfter r).getD t
  | r => (stripDurAfter r).getD t

/-- `re.sub(r'\s*\([^)]*\)$', '', t)` for inputs with no trailing
newline: the `[^)]*` segment before the final paren must contain the
opening one. -/
def stripTrailingParen (t : List Char) : List Char :=
  match t.reverse with
  | ')' :: r1 =>
    let tail := (r1.takeWhile (fun c => c != ')')).reverse
    if tail.contains '(' then
      let core := t.dropLast
      let corePre := core.take (core.length - tail.length)
      let a := tail.takeWhile (fun c => c != '(')
      ((corePre ++ a).reverse.dropWhile pySpace).reverse
    else t
  | _ => t

/-- `\(\d+[:\.]\d+\)`, returning the rest after the closing paren. -/
def tryDurParen2 (s : List Char) : Option (List Char) := do
  let r1 ← stripLit "(".toList s
  let d1 := r1.takeWhile Char.isDigit
  if d1 = [] then none else
  match r1.drop d1.length with
  | c :: r2 =>
    if c == ':' || c == '.' then
      let d2 := r2.takeWhile Char.isDigit
      if d2 = [] then none else
      stripLit ")".toList (r2.drop d2.length)
    else none
  | [] => none

def lrClass (c : Char) : Bool := c != '-' && c != '(' && c != ')'

/-- Lazy expansion of `([^-\(\)]+?)\s*\(\d+[:\.]\d+\)`: at each length
try the duration first, then extend the group by one class
character. -/
def lrGo : Nat → List Char → List Char → Option (List Char × List Char)
  | 0, _, _ => none
  | fuel + 1, acc, s =>
    match tryDurParen2 (s.dropWhile pySpace) with
    | some r => some (r, acc.reverse)
    | none =>
      match s with
      | [] => none
      | c :: rest => if lrClass c then lrGo fuel (c :: acc) rest else none

def tryLastResort (s : List Char) : Option (List Char × List Char) :=
  match s with
  | [] => none
  | c :: rest => if lrClass c then lrGo (rest.length + 1) [c] rest else none

/-- Cleanup shared by the two split branches of the Content parser. -/
def oclcCleanCommon (part : List Char) : List Char :=
  let p1 := pyStrip part
  let p2 := if p1.getLast? == some '.' then pyStrip p1.dropLast else p1
  let p3 := scanSub slashMatch p2
  stripTrailingDuration p3

/-- The last-resort pass of `extract_tracks_from_oclc`: fires only
when the Content branches produced nothing, appending with a
membership check. -/
def oclcLastResort (sec : List Char) (tracks : List (List Char)) : List (List Char) :=
  if tracks = [] then
    (findIter tryLastResort sec).foldl (fun acc m =>
      let ct := pyStrip m
      if ct ≠ [] && !isSentinel ct && !acc.contains ct then acc ++ [ct] else acc)
      tracks
  else tracks

/-- `extract_tracks_from_oclc`. -/
def extract_tracks_from_oclc (oclc_results oclc_number : String) : List String :=
  match findOclcSection oclc_results.data oclc_number.data with
  | none => []
  | some sec =>
    let contentOpt : Option (List Char) :=
      match searchFirst tryContentField sec with
      | some g => some (pyStrip g)
      | none =>
        match searchFirst tryDescContent sec with
        | some g => some (pyStrip g)
        | none => none
    let tracks : List (List Char) :=
      match contentOpt with
      | some ct =>
        if ct ≠ [] then
          if isSubstr " -- ".toList ct then
            (splitOnSub " -- ".toList ct).foldl (fun acc part =>
              let tn := stripTrailingParen (oclcCleanCommon part)
              if tn ≠ [] && !isSentinel tn then acc ++ [pyStrip tn] else acc) []
          else
            ['\n', ';', ','].foldl (fun acc delim =>
              if isSubstr [delim] ct && acc = [] then
                (splitOnSub [delim] ct).foldl (fun acc2 part =>
                  let cp := oclcCleanCommon part
                  if cp ≠ [] && !isSentinel cp then acc2 ++ [cp] else acc2) acc
              else acc) []
        else []
      | none => []
    (oclcLastResort sec tracks).map (fun l => String.mk l)

/-! ### C9: deduplication of extracted track lists -/

lemma foldl_nodup_of_step {α : Type} (step : List (List Char) → α → List (List Char))
    (hstep : ∀ acc t, step acc t = acc ∨
      ∃ v, acc.contains v = false ∧ step acc t = acc ++ [v]) :
    ∀ (l : List α) (acc : List (List Char)), acc.Nodup → (l.foldl step acc).Nodup := by
  intro l
  induction l with
  | nil => intro acc h; simpa using h
  | cons t ts ih =>
    intro acc h
    rw [List.foldl_cons]
    rcases hstep acc t with he | ⟨v, hv, he⟩
    · rw [he]; exact ih acc h
    · rw [he]
      apply ih
      have hvm : v ∉ acc := by
        intro hm
        have hc : acc.contains v = true := by simpa using hm
        rw [hv] at hc
        exact Bool.false_ne_true hc
      simpa [List.nodup_append] using ⟨h, hvm⟩

lemma foldl_nodup_of_pres {α : Type} (step : List (List Char) → α → List (List Char))
    (hstep : ∀ acc t, acc.Nodup → (step acc t).Nodup) :
    ∀ (l : List α) (acc : List (List Char)), acc.Nodup → (l.foldl step acc).Nodup := by
  intro l
  induction l with
  | nil => intro acc h; simpa using h
  | cons t ts ih =>
    intro acc h
    rw [List.foldl_cons]
    exact ih _ (hstep acc t h)

lemma metaPhase2Step_nodup (s : List Char) (tracks : List (List Char))
    (matcher : List Char → Option (List Char × List Char)) (h : tracks.Nodup) :
    (metaPhase2Step s tracks matcher).Nodup := by
  rw [metaPhase2Step]
  by_cases hg : tracks.length < 3
  · rw [if_pos hg]
    apply foldl_nodup_of_step _ _ _ _ h
    intro acc t
    by_cases hc : (rstripCommas (pyStrip t) ≠ [] && !isSentinel (rstripCommas (pyStrip t)) &&
        !acc.contains (rstripCommas (pyStrip t))) = true
    · right
      refine ⟨rstripCommas (pyStrip t), ?_, by simp only [hc, if_pos]⟩
      have := (Bool.and_eq_true _ _).mp hc
      simpa using this.2
    · left
      simp only [Bool.not_eq_true] at hc
      simp only [hc, Bool.false_eq_true, if_false]
  · rw [if_neg hg]; exact h

lemma metaPhase3_nodup (s : List Char) (tracks : List (List Char)) (h : tracks.Nodup) :
    (metaPhase3 s tracks).Nodup := by
  rw [metaPhase3]
  by_cases hg : tracks.length < 3
  · rw [if_pos hg]
    apply foldl_nodup_of_pres _ _ _ _ h
    intro acc sec hacc
    apply foldl_nodup_of_step _ _ _ _ hacc
    intro acc2 t
    by_cases hc : (pyStrip t ≠ [] && !isSentinel (pyStrip t) &&
        !acc2.contains (pyStrip t)) = true
    · right
      refine ⟨pyStrip t, ?_, by simp only [hc, if_pos]⟩
      have := (Bool.and_eq_true _ _).mp hc
      simpa using this.2
    · left
      simp only [Bool.not_eq_true] at hc
      simp only [hc, Bool.false_eq_true, if_false]
  · rw [if_neg hg]; exact h

lemma oclcLastResort_nodup (sec : List Char) (tracks : List (List Char))
    (h : tracks.Nodup) : (oclcLastResort sec tracks).Nodup := by
  rw [oclcLastResort]
  by_cases hg : tracks = []
  · rw [if_pos hg]
    apply foldl_nodup_of_step _ _ _ _ h
    intro acc t
    by_cases hc : (pyStrip t ≠ [] && !isSentinel (pyStrip t) &&
        !acc.contains (pyStrip t)) = true
    · right
      refine ⟨pyStrip t, ?_, by simp only [hc, if_pos]⟩
      have := (Bool.and_eq_true _ _).mp hc
      simpa using this.2
    · left
      simp only [Bool.not_eq_true] at hc
      simp only [hc, Bool.false_eq_true, if_false]
  · rw [if_neg hg]; exact h

/-- C9 counterexample: the primary extraction passes append without any
membership check, so both extractors can return a title twice: the
JSON-like Contents pass of `extract_tracks_from_metadata` and the
" -- "-split Content pass of `extract_tracks_from_oclc` both return
["Echo", "Echo", "Delta"] on inputs listing "Echo" twice. -/
theorem c9_counterexample :
    extract_tracks_from_metadata ("Contents: - tracks: [\x7b\"number\": 1, \"title\": \"Echo\"\x7d, \x7b\"number\": 2, \"title\": \"Echo\"\x7d, \x7b\"number\": 3, \"title\": \"Delta\"\x7d]")
      = ["Echo", "Echo", "Delta"] ∧
    ¬ (extract_tracks_from_metadata ("Contents: - tracks: [\x7b\"number\": 1, \"title\": \"Echo\"\x7d, \x7b\"number\": 2, \"title\": \"Echo\"\x7d, \x7b\"number\": 3, \"title\": \"Delta\"\x7d]")).Nodup ∧
    extract_tracks_from_oclc ("OCLC Number: 77\nContent: Echo -- Echo -- Delta") "77"
      = ["Echo", "Echo", "Delta"] ∧
    ¬ (extract_tracks_from_oclc ("OCLC Number: 77\nContent: Echo -- Echo -- Delta") "77").Nodup := by
  refine ⟨by decide, by decide, by decide, by decide⟩

/-- C9 amended: deduplication by exact string equality at insertion
time holds only for the fallback passes, each of which guards its
append with a membership test: the flexible-pattern phase and the
labeled-section phase of `extract_tracks_from_metadata`, and the
last-resort duration scan of `extract_tracks_from_oclc`, all preserve
duplicate-freeness of the accumulated list.  The primary passes carry
no such guard (see the counterexample). -/
theorem c9_amended_fallback_dedup :
    (∀ (s : List Char) (tracks : List (List Char))
        (matcher : List Char → Option (List Char × List Char)), tracks.Nodup →
      (metaPhase2Step s tracks matcher).Nodup) ∧
    (∀ (s : List Char) (tracks : List (List Char)), tracks.Nodup →
      (metaPhase3 s tracks).Nodup) ∧
    (∀ (sec : List Char) (tracks : List (List Char)), tracks.Nodup →
      (oclcLastResort sec tracks).Nodup) :=
  ⟨metaPhase2Step_nodup, metaPhase3_nodup, oclcLastResort_nodup⟩

theorem c9_amended_fallback_dedup_witness :
    (metaPhase2Step ("\"title\": \"A\"").data ["B".data] tryTitleQuoted).Nodup ∧
    (metaPhase3 ("Tracks: Alpha (1:02)").data ["B".data]).Nodup ∧
    (oclcLastResort ("x (1:23)").data []).Nodup :=
  ⟨c9_amended_fallback_dedup.1 _ _ _ (by decide),
   c9_amended_fallback_dedup.2.1 _ _ (by decide),
   c9_amended_fallback_dedup.2.2 _ _ (by decide)⟩
